import Mathlib

/-!
# Verification of blob.py (Shamir secret sharing over GF(257))

Shallow embedding of `src/blob.py` and proofs of the specification claims.

Conventions of the embedding:
* Python `int` is `Int`; Python `%` on a positive modulus agrees with `Int.emod`.
* Python byte strings are `List Nat` (each element a byte value), Python text
  strings are `List Char`.
* Fallible Python code is embedded as `Except PyErr` (raised exceptions) or
  `Option` (the `str_to_share` catch-all that returns `None`).
* `secrets.randbelow` draws are passed in explicitly as lists of coefficients,
  and theorems quantify over every admissible draw.
-/

/-- Python exception classes that the embedded code can raise. `ValueError` and
`ArithmeticError` are distinct, unrelated classes in Python's hierarchy. -/
inductive PyErr where
  | valueError (msg : String)
  | indexError (msg : String)
  | arithmeticError (msg : String)
  | unicodeDecodeError (msg : String)
  deriving DecidableEq

/-- PRIME = 257, the global modulus of blob.py. -/
def PRIME : Int := 257

instance : Fact (Nat.Prime 257) := ⟨by norm_num⟩

/-! ## Python string primitives used by blob.py -/

/-- Whitespace characters stripped by Python's `str.strip()` (ASCII range). -/
def pyIsSpace (c : Char) : Bool :=
  c == ' ' || c == '\t' || c == '\n' || c == '\r' || c == '\x0b' || c == '\x0c'

/-- Models Python `s.strip()`: remove whitespace from both ends. -/
def pyStrip (s : List Char) : List Char :=
  ((s.dropWhile pyIsSpace).reverse.dropWhile pyIsSpace).reverse

/-- Models Python `s.split(":")`: split at every colon; `"".split(":") = [""]`. -/
def pySplitColon : List Char → List (List Char)
  | [] => [[]]
  | c :: rest =>
    if c = ':' then [] :: pySplitColon rest
    else
      match pySplitColon rest with
      | g :: gs => (c :: g) :: gs
      | [] => [[c]]

/-- Digit-with-underscore run of Python's `int()` grammar, after the first
digit has been consumed into `acc`: a single `'_'` is allowed only between two
digits. -/
def parseDigitsAux : List Char → Nat → Option Nat
  | [], acc => some acc
  | c :: rest, acc =>
    if c.isDigit then parseDigitsAux rest (acc * 10 + (c.toNat - 48))
    else if c = '_' then
      match rest with
      | c2 :: rest2 =>
        if c2.isDigit then parseDigitsAux rest2 (acc * 10 + (c2.toNat - 48))
        else none
      | [] => none
    else none

/-- Unsigned digit run of Python's `int()` grammar: nonempty, starts with a
digit, single underscores allowed between digits. -/
def parseDigits : List Char → Option Nat
  | [] => none
  | c :: rest => if c.isDigit then parseDigitsAux rest (c.toNat - 48) else none

/-- Models Python `int(s)` for ASCII strings: surrounding whitespace, an
optional sign, then a digit run. (Python additionally accepts non-ASCII
Unicode digits, which never occur in this system's tokens.) Returns `none`
where Python raises `ValueError`. -/
def pyIntCore : List Char → Option Int
  | [] => none
  | c :: rest =>
    if c = '+' then (parseDigits rest).map (fun n => (n : Int))
    else if c = '-' then (parseDigits rest).map (fun n => -(n : Int))
    else (parseDigits (c :: rest)).map (fun n => (n : Int))

/-- Models Python `int(s)` on the stripped string (see `pyIntCore`). -/
def pyInt (s : List Char) : Option Int := pyIntCore (pyStrip s)

/-- Decimal digits of `n`, most significant first, by repeated division
(`fuel`-structured so that it reduces definitionally). -/
def natReprAux : Nat → Nat → List Char
  | 0, _ => []
  | fuel + 1, n =>
    if n = 0 then [] else natReprAux fuel (n / 10) ++ [Char.ofNat (48 + n % 10)]

/-- Decimal numeral of `n` with no leading zeros, as printed by Python
`str(int)` for nonnegative values. -/
def natRepr (n : Nat) : List Char :=
  if n = 0 then ['0'] else natReprAux (n + 1) n

/-- Decimal numeral of an integer as printed by Python `str(int)`. -/
def intRepr (x : Int) : List Char :=
  if x < 0 then '-' :: natRepr x.natAbs else natRepr x.toNat

/-- Python truthiness of `str_to_share`'s result: `None` and the empty list
are both falsy; a nonempty share is truthy. -/
def pyTruthy : Option (List (Int × Int)) → Bool
  | none => false
  | some l => !l.isEmpty

/-! ## base64 (Python `base64.b64encode` / `base64.b64decode`) -/

/-- Standard base64 alphabet. -/
def b64Alphabet : List Char :=
  "ABCDEFGHIJKLMNOPQRSTUVWXYZabcdefghijklmnopqrstuvwxyz0123456789+/".toList

/-- Character encoding a 6-bit value. -/
def b64Char (v : Nat) : Char := b64Alphabet.getD v 'A'

/-- Models `base64.b64encode` on a byte list: 3-byte groups become 4 alphabet
characters; a trailing group of 1 or 2 bytes is padded with `'='`. -/
def b64encode : List Nat → List Char
  | [] => []
  | [b1] => [b64Char (b1 / 4), b64Char (b1 % 4 * 16), '=', '=']
  | [b1, b2] =>
    [b64Char (b1 / 4), b64Char (b1 % 4 * 16 + b2 / 16), b64Char (b2 % 16 * 4), '=']
  | b1 :: b2 :: b3 :: rest =>
    b64Char (b1 / 4) :: b64Char (b1 % 4 * 16 + b2 / 16) ::
      b64Char (b2 % 16 * 4 + b3 / 64) :: b64Char (b3 % 64) :: b64encode rest

/-- Value of a base64 alphabet character (the `table_a2b_base64` lookup of
CPython's `binascii`); `none` for every other character. -/
def b64CharVal (c : Char) : Option Nat :=
  if 'A' ≤ c ∧ c ≤ 'Z' then some (c.toNat - 65)
  else if 'a' ≤ c ∧ c ≤ 'z' then some (c.toNat - 97 + 26)
  else if '0' ≤ c ∧ c ≤ '9' then some (c.toNat - 48 + 52)
  else if c = '+' then some 62
  else if c = '/' then some 63
  else none

/-- Models CPython's `binascii.a2b_base64` in its default non-strict mode:
characters outside the alphabet are skipped, `'='` ends the data once a
4-character group can be completed, and a final partial group is an error
(`none`). State: current position in the 4-character group, bits carried over,
and consecutive pad count. -/
def a2bLoop : List Char → Nat → Nat → Nat → Option (List Nat)
  | [], qp, _, _ => if qp = 0 then some [] else none
  | c :: rest, qp, left, pads =>
    if c = '=' then
      if 2 ≤ qp ∧ 4 ≤ qp + (pads + 1) then some []
      else a2bLoop rest qp left (pads + 1)
    else
      match b64CharVal c with
      | none => a2bLoop rest qp left pads
      | some v =>
        match qp with
        | 0 => a2bLoop rest 1 v 0
        | 1 => (a2bLoop rest 2 (v % 16) 0).map (fun bs => (left * 4 + v / 16) :: bs)
        | 2 => (a2bLoop rest 3 (v % 4) 0).map (fun bs => (left * 16 + v / 4) :: bs)
        | _ => (a2bLoop rest 0 0 0).map (fun bs => (left * 64 + v) :: bs)

/-- Models Python `base64.b64decode(s)` on a text payload: the payload must be
ASCII (else `UnicodeEncodeError`), then it is decoded in non-strict mode. -/
def b64decode (s : List Char) : Option (List Nat) :=
  if s.all (fun c => c.toNat < 128) then a2bLoop s 0 0 0 else none

/-! ## Share serialization (`share_to_str` / `str_to_share`) -/

/-- Models `y.to_bytes(2, 'big')` for `0 ≤ y < 2 ^ 16`, the only range at which
`share_to_str` uses it (`y` is a field element below 257). -/
def toBytes2BE (y : Int) : List Nat := [y.toNat / 256, y.toNat % 256]

/-- Models `int.from_bytes(y_bytes[i:i+2], 'big')` applied to each 2-byte
slice; a trailing single byte would be its own value (unreachable after the
even-length check in `str_to_share`). -/
def fromBytes2 : List Nat → List Int
  | b1 :: b2 :: rest => ((b1 * 256 + b2 : Nat) : Int) :: fromBytes2 rest
  | [b] => [(b : Int)]
  | [] => []

/-- Embeds `share_to_str` from blob.py: `f"{x}:{y_b64}"`, with `x` taken from
the first point. (The `IndexError` on an empty share is not modelled; every
claim about serialization restricts to nonempty shares.) -/
def share_to_str (share : List (Int × Int)) : List Char :=
  intRepr (share.headD (0, 0)).1 ++
    ':' :: b64encode ((share.map (fun p => toBytes2BE p.2)).flatten)

/-- Continuation of `str_to_share` after `int(x_str)` and `b64decode`: the
even-length check, the `x <= 0 or any(not (0 <= v < PRIME) for v in y)` check
(a failing `int()` or `b64decode` already returned `None`). -/
def strToShareChecks : Option Int → Option (List Nat) → Option (List (Int × Int))
  | none, _ => none
  | some _, none => none
  | some x, some yBytes =>
    if yBytes.length % 2 ≠ 0 then none
    else if x ≤ 0 then none
    else if (fromBytes2 yBytes).any (fun v => !(decide (0 ≤ v ∧ v < PRIME))) then none
    else some ((fromBytes2 yBytes).map (fun v => (x, v)))

/-- Dispatch of `str_to_share` on `s.strip().split(":")`: the unpacking
`x_str, y_b64 = …` raises unless there are exactly two parts. -/
def strToShareSplit : List (List Char) → Option (List (Int × Int))
  | [xStr, yB64] => strToShareChecks (pyInt xStr) (b64decode yB64)
  | _ => none

/-- Embeds `str_to_share` from blob.py. Every exception raised inside the
`try` block is caught and turned into `None`, embedded as `none`. -/
def str_to_share (s : List Char) : Option (List (Int × Int)) :=
  strToShareSplit (pySplitColon (pyStrip s))

/-! ## Share validation (`validate_shares`) -/

/-- Embeds the comprehension `[s[0][0] for s in shares]`, which raises
`IndexError` at the first empty share. -/
def headIndices : List (List (Int × Int)) → Except PyErr (List Int)
  | [] => .ok []
  | s :: rest =>
    match s with
    | [] => .error (.indexError "list index out of range")
    | p :: _ =>
      match headIndices rest with
      | .error e => .error e
      | .ok idxs => .ok (p.1 :: idxs)

/-- Final step of `validate_shares`: the duplicate-index check over the
collected first indices. -/
def validateIdx : Except PyErr (List Int) → Except PyErr (Bool × String)
  | .error e => .error e
  | .ok idxs =>
    if idxs.dedup.length ≠ idxs.length then .ok (false, "Duplicate share indices.")
    else .ok (true, "")

/-- Embeds `validate_shares` from blob.py. `len({...})`, the size of a Python
set built from a list, is the length of `List.dedup`. -/
def validate_shares (shares : List (List (Int × Int))) : Except PyErr (Bool × String) :=
  if shares.length < 2 then .ok (false, "At least 2 shares needed.")
  else if (shares.map List.length).dedup.length ≠ 1 then
    .ok (false, "Shares length mismatch.")
  else validateIdx (headIndices shares)

/-! ## Field arithmetic and the secret-sharing core -/

/-- Models Python `pow(a, -1, p)` for `p > 0`: the unique `u` in `[0, p)` with
`a * u ≡ 1 (mod p)`, found by search; Python raises `ValueError` ("base is not
invertible for the given modulus") when no inverse exists, i.e. exactly when
the search fails. -/
def modinv (a p : Int) : Except PyErr Int :=
  match (List.range p.toNat).find? (fun (u : Nat) => a * (u : Int) % p == 1) with
  | some u => .ok (u : Int)
  | none => .error (.valueError "base is not invertible for the given modulus")

/-- Embeds `eval_poly` from blob.py:
`sum(c * pow(x, i, p) for i, c in enumerate(coeffs)) % p`. -/
def eval_poly (coeffs : List Int) (x p : Int) : Int :=
  ((coeffs.enum.map (fun ic => ic.2 * (x ^ ic.1 % p))).sum) % p

/-- Inner loop of `lagrange_interp`: folds
`li = li * (-xj) * modinv(xi - xj, p) % p` over the enumerated `xs`, skipping
index `i`; the first `modinv` failure propagates. -/
def liLoop (xi p : Int) (i : Nat) : List (Nat × Int) → Int → Except PyErr Int
  | [], li => .ok li
  | (j, xj) :: rest, li =>
    if i = j then liLoop xi p i rest li
    else
      match modinv (xi - xj) p with
      | .error e => .error e
      | .ok inv => liLoop xi p i rest (li * (-xj) * inv % p)

/-- Outer loop of `lagrange_interp`: folds
`total = (total + yi * li) % p` over the enumerated point list. -/
def totLoop (xs : List Int) (p : Int) : List (Nat × (Int × Int)) → Int → Except PyErr Int
  | [], total => .ok total
  | (i, (xi, yi)) :: rest, total =>
    match liLoop xi p i xs.enum 1 with
    | .error e => .error e
    | .ok li => totLoop xs p rest ((total + yi * li) % p)

/-- Embeds `lagrange_interp` from blob.py: the duplicate check
`len(set(xs)) != len(xs)` (set size = `dedup` length), then the two nested
accumulation loops. -/
def lagrange_interp (xs ys : List Int) (p : Int) : Except PyErr Int :=
  if xs.dedup.length ≠ xs.length then
    .error (.valueError "Duplicate x values in shares.")
  else totLoop xs p ((xs.zip ys).enum) 0

/-- Embeds `split_secret` from blob.py with the `k - 1` draws of
`secrets.randbelow(PRIME)` passed in as `rand`:
`coeffs = [byte] + rand`, evaluated at `x = 1, …, n`. -/
def split_secret (byte : Int) (n : Nat) (rand : List Int) : List (Int × Int) :=
  (List.range' 1 n).map (fun (x : Nat) => ((x : Int), eval_poly (byte :: rand) (x : Int) PRIME))

/-- Embeds `recover_secret` from blob.py. `xs, ys = zip(*shares)` raises
`ValueError` on an empty share list; otherwise `xs`/`ys` are the components. -/
def recover_secret (shares : List (Int × Int)) : Except PyErr Int :=
  match shares with
  | [] => .error (.valueError "not enough values to unpack (expected 2, got 0)")
  | _ => lagrange_interp (shares.map Prod.fst) (shares.map Prod.snd) PRIME

/-- Loop of `encode_secret`: for each secret byte (paired with its random
coefficient draw), append the `i`-th point of `split_secret` to share `i`. -/
def encodeLoop (n : Nat) : List (Nat × List Int) → List (List (Int × Int)) → List (List (Int × Int))
  | [], acc => acc
  | (b, r) :: rest, acc =>
    encodeLoop n rest (List.zipWith (fun sh pt => sh ++ [pt]) acc (split_secret (b : Int) n r))

/-- Embeds `encode_secret` from blob.py on the byte sequence of the secret
(`str.isascii` holds iff every code point is below 128, and for such strings
`str.encode()` yields exactly those code points as bytes). `rands` supplies the
random draw for each byte in order. -/
def encode_secret (secret : List Nat) (n : Nat) (rands : List (List Int)) :
    Except PyErr (List (List (Int × Int))) :=
  if secret.all (fun b => b < 128) then
    .ok (encodeLoop n (secret.zip rands) (List.replicate n []))
  else .error (.valueError "Only ASCII secrets supported.")

/-- Length of the tuples produced by Python `zip(*shares)`: the minimum share
length (0 when `shares` is empty, since `zip()` is an empty iterator). -/
def zipStarLen (shares : List (List (Int × Int))) : Nat :=
  match shares.map List.length with
  | [] => 0
  | l :: ls => ls.foldl min l

/-- Models `zip(*shares)`: the list of per-position columns, truncated to the
shortest share. -/
def zipStar (shares : List (List (Int × Int))) : List (List (Int × Int)) :=
  (List.range (zipStarLen shares)).map (fun t => shares.map (fun s => s.getD t (0, 0)))

/-- Models the `bytes(...)` constructor over the generator of recovered
values: each column is recovered in order and must lie in `[0, 256)`
(else `ValueError`); recovery errors propagate. -/
def decodeBytesLoop : List (List (Int × Int)) → Except PyErr (List Nat)
  | [] => .ok []
  | col :: rest =>
    match recover_secret col with
    | .error e => .error e
    | .ok v =>
      if 0 ≤ v ∧ v < 256 then
        match decodeBytesLoop rest with
        | .error e => .error e
        | .ok vs => .ok (v.toNat :: vs)
      else .error (.valueError "bytes must be in range(0, 256)")

/-- One-byte-at-a-time worker for the strict UTF-8 decoder. The `fuel`
argument only drives structural termination: each step consumes at least one
input byte, so any fuel at least the length of the input gives the decoder's
value. Continuation bytes are read with `List.getD`/`List.drop`, which agree
with pattern-matching the tail when enough bytes remain and otherwise fall
into the length guard that rejects a truncated sequence. -/
def utf8Go : Nat → List Nat → Option (List Nat)
  | _, [] => some []
  | 0, _ :: _ => none
  | fuel + 1, b :: rest =>
    if b < 0x80 then
      (utf8Go fuel rest).map (fun cs => b :: cs)
    else if b < 0xC2 then none
    else if b < 0xE0 then
      if rest.length < 1 then none
      else
        if 0x80 ≤ rest.getD 0 0 ∧ rest.getD 0 0 < 0xC0 then
          (utf8Go fuel (rest.drop 1)).map
            (fun cs => ((b - 0xC0) * 64 + (rest.getD 0 0 - 0x80)) :: cs)
        else none
    else if b < 0xF0 then
      if rest.length < 2 then none
      else
        if (if b = 0xE0 then 0xA0 ≤ rest.getD 0 0 ∧ rest.getD 0 0 < 0xC0
            else if b = 0xED then 0x80 ≤ rest.getD 0 0 ∧ rest.getD 0 0 < 0xA0
            else 0x80 ≤ rest.getD 0 0 ∧ rest.getD 0 0 < 0xC0) ∧
            0x80 ≤ rest.getD 1 0 ∧ rest.getD 1 0 < 0xC0 then
          (utf8Go fuel (rest.drop 2)).map
            (fun cs => ((b - 0xE0) * 4096 + (rest.getD 0 0 - 0x80) * 64 +
              (rest.getD 1 0 - 0x80)) :: cs)
        else none
    else if b < 0xF5 then
      if rest.length < 3 then none
      else
        if (if b = 0xF0 then 0x90 ≤ rest.getD 0 0 ∧ rest.getD 0 0 < 0xC0
            else if b = 0xF4 then 0x80 ≤ rest.getD 0 0 ∧ rest.getD 0 0 < 0x90
            else 0x80 ≤ rest.getD 0 0 ∧ rest.getD 0 0 < 0xC0) ∧
            0x80 ≤ rest.getD 1 0 ∧ rest.getD 1 0 < 0xC0 ∧
            0x80 ≤ rest.getD 2 0 ∧ rest.getD 2 0 < 0xC0 then
          (utf8Go fuel (rest.drop 3)).map
            (fun cs => ((b - 0xF0) * 262144 + (rest.getD 0 0 - 0x80) * 4096 +
              (rest.getD 1 0 - 0x80) * 64 + (rest.getD 2 0 - 0x80)) :: cs)
        else none
    else none

/-- Models Python `bytes.decode()` with its default strict UTF-8 codec,
returning the decoded code points: rejects stray continuation bytes, overlong
encodings, surrogates, code points above U+10FFFF and truncated sequences. -/
def utf8Decode (bs : List Nat) : Option (List Nat) :=
  utf8Go bs.length bs

/-- The `.decode()` step of `decode_secret`, applied to the recovered bytes. -/
def decodeFinish : Except PyErr (List Nat) → Except PyErr (List Nat)
  | .error e => .error e
  | .ok bs =>
    match utf8Decode bs with
    | some cps => .ok cps
    | none => .error (.unicodeDecodeError "invalid start byte or continuation byte")

/-- Embeds `decode_secret` from blob.py:
`bytes(recover_secret(list(bs)) for bs in zip(*shares)).decode()`. The result
is the recovered string as its list of code points. -/
def decode_secret (shares : List (List (Int × Int))) : Except PyErr (List Nat) :=
  decodeFinish (decodeBytesLoop (zipStar shares))

example : modinv 2 257 = .ok 129 := rfl
example : modinv (-1) 257 = .ok 256 := rfl
example : modinv 0 257 = .error (.valueError "base is not invertible for the given modulus") := rfl
example : eval_poly [72, 1, 2] 5 257 = 127 := rfl
example : recover_secret [(1, 0), (1, 1)] =
    .error (.valueError "Duplicate x values in shares.") := rfl
example : recover_secret [(1, 195), (2, 195)] = .ok 195 := rfl
example : recover_secret [(1, 75), (3, 93), (5, 127)] = .ok 72 := rfl
example : utf8Decode [195, 169] = some [233] := rfl
example : utf8Decode [128] = none := rfl
example : utf8Decode [72, 105] = some [72, 105] := rfl
example : decode_secret [[(1, 195), (1, 169)], [(2, 195), (2, 169)]] = .ok [233] := rfl
example : decode_secret [[(1, 128)], [(2, 128)]] =
    .error (.unicodeDecodeError "invalid start byte or continuation byte") := rfl
example : encode_secret [72, 105] 5 [[1, 2], [3, 4]] =
    .ok [[(1, 75), (1, 112)], [(2, 82), (2, 127)], [(3, 93), (3, 150)],
      [(4, 108), (4, 181)], [(5, 127), (5, 220)]] := rfl
example : decode_secret [[(1, 75), (1, 112)], [(3, 93), (3, 150)], [(5, 127), (5, 220)]] =
    .ok [72, 105] := rfl

example : pySplitColon "3:ab".toList = ["3".toList, "ab".toList] := rfl
example : pySplitColon "a:b:c".toList = ["a".toList, "b".toList, "c".toList] := rfl
example : pySplitColon "".toList = [[]] := rfl
example : pyInt "  12_3 ".toList = some 123 := rfl
example : pyInt "1__3".toList = none := rfl
example : pyInt "-7".toList = some (-7) := rfl
example : pyInt "".toList = none := rfl
example : b64encode [0] = "AA==".toList := rfl
example : b64encode [0, 0] = "AAA=".toList := rfl
example : b64encode [72, 105] = "SGk=".toList := rfl
example : b64decode "SGk=".toList = some [72, 105] := rfl
example : b64decode "A".toList = none := rfl
example : b64decode "AA".toList = none := rfl
example : b64decode "=".toList = some [] := rfl
example : str_to_share "1:".toList = some [] := rfl
example : str_to_share "0:AAA=".toList = none := rfl
example : str_to_share "3:A".toList = none := rfl
example : str_to_share "2:AAEBAA==".toList = some [(2, 1), (2, 256)] := rfl
example : share_to_str [(2, 1), (2, 256)] = "2:AAEBAA==".toList := rfl
example : validate_shares [] = .ok (false, "At least 2 shares needed.") := rfl
example : validate_shares [[(1, 0)], [(1, 0)]] = .ok (false, "Duplicate share indices.") := rfl
example : validate_shares [[], []] = .error (.indexError "list index out of range") := rfl

/-! ## Basic list and character lemmas -/

theorem dedup_length_eq_iff {α : Type} [DecidableEq α] (l : List α) :
    l.dedup.length = l.length ↔ l.Nodup := by
  constructor
  · intro h
    exact List.dedup_eq_self.mp ((List.dedup_sublist l).eq_of_length h)
  · intro h
    rw [List.dedup_eq_self.mpr h]

theorem dedup_all_eq {α : Type} [DecidableEq α] {l : List α} {c : α}
    (hne : l ≠ []) (h : ∀ a ∈ l, a = c) : l.dedup = [c] := by
  induction l with
  | nil => exact absurd rfl hne
  | cons a t ih =>
    have ha : a = c := h a (List.mem_cons_self a t)
    cases t with
    | nil => simp [ha]
    | cons b t2 =>
      have hmem : a ∈ b :: t2 := by
        have hb : b = c := h b (by simp)
        rw [ha, hb]
        exact List.mem_cons_self _ _
      rw [List.dedup_cons_of_mem hmem]
      exact ih (by simp) (fun x hx => h x (List.mem_cons_of_mem _ hx))

theorem all_pairs_eq_iff_dedup_one {α : Type} [DecidableEq α] (l : List α) (hne : l ≠ []) :
    l.dedup.length = 1 ↔ ∀ a ∈ l, ∀ b ∈ l, a = b := by
  constructor
  · intro h a ha b hb
    obtain ⟨c, hc⟩ := List.length_eq_one.mp h
    have hall : ∀ x ∈ l, x = c := by
      intro x hx
      have hxd : x ∈ l.dedup := List.mem_dedup.mpr hx
      rw [hc] at hxd
      simpa using hxd
    rw [hall a ha, hall b hb]
  · intro h
    cases l with
    | nil => exact absurd rfl hne
    | cons a t =>
      rw [dedup_all_eq (l := a :: t) (c := a) (by simp)
        (fun x hx => h x hx a (List.mem_cons_self a t))]
      rfl

theorem ne_of_isDigit_of_not {c d : Char} (h : c.isDigit = true) (hd : d.isDigit = false) :
    c ≠ d := by
  intro e
  rw [e, hd] at h
  cases h

theorem digit_not_space {c : Char} (h : c.isDigit = true) : pyIsSpace c = false := by
  have h1 := beq_eq_false_iff_ne.mpr (ne_of_isDigit_of_not h (d := ' ') (by decide))
  have h2 := beq_eq_false_iff_ne.mpr (ne_of_isDigit_of_not h (d := '\t') (by decide))
  have h3 := beq_eq_false_iff_ne.mpr (ne_of_isDigit_of_not h (d := '\n') (by decide))
  have h4 := beq_eq_false_iff_ne.mpr (ne_of_isDigit_of_not h (d := '\r') (by decide))
  have h5 := beq_eq_false_iff_ne.mpr (ne_of_isDigit_of_not h (d := '\x0b') (by decide))
  have h6 := beq_eq_false_iff_ne.mpr (ne_of_isDigit_of_not h (d := '\x0c') (by decide))
  simp [pyIsSpace, h1, h2, h3, h4, h5, h6]

theorem pyStrip_eq_self {l : List Char} (h : ∀ c ∈ l, pyIsSpace c = false) :
    pyStrip l = l := by
  have h1 : ∀ (m : List Char), (∀ c ∈ m, pyIsSpace c = false) →
      m.dropWhile pyIsSpace = m := by
    intro m hm
    cases m with
    | nil => rfl
    | cons a t =>
      rw [List.dropWhile_cons, hm a (List.mem_cons_self a t)]
      simp
  unfold pyStrip
  rw [h1 l h, h1 l.reverse (fun c hc => h c (List.mem_reverse.mp hc)), List.reverse_reverse]

theorem pySplitColon_no_colon {l : List Char} (h : ∀ c ∈ l, c ≠ ':') :
    pySplitColon l = [l] := by
  induction l with
  | nil => rfl
  | cons c rest ih =>
    unfold pySplitColon
    rw [if_neg (h c (List.mem_cons_self c rest)),
      ih (fun d hd => h d (List.mem_cons_of_mem c hd))]

theorem pySplitColon_append (a b : List Char) (h : ∀ c ∈ a, c ≠ ':') :
    pySplitColon (a ++ ':' :: b) = a :: pySplitColon b := by
  induction a with
  | nil => simp [pySplitColon]
  | cons c rest ih =>
    show pySplitColon (c :: (rest ++ ':' :: b)) = _
    conv_lhs => unfold pySplitColon
    rw [if_neg (h c (List.mem_cons_self c rest)),
      ih (fun d hd => h d (List.mem_cons_of_mem c hd))]

theorem pyInt_digits {ds : List Char} {v : Nat} (hd : ∀ c ∈ ds, c.isDigit = true)
    (hne : ds ≠ []) (hv : parseDigits ds = some v) : pyInt ds = some (v : Int) := by
  unfold pyInt
  rw [pyStrip_eq_self (fun c hc => digit_not_space (hd c hc))]
  cases ds with
  | nil => exact absurd rfl hne
  | cons c rest =>
    have hc := hd c (List.mem_cons_self c rest)
    simp only [pyIntCore]
    rw [if_neg (ne_of_isDigit_of_not hc (d := '+') (by decide)),
      if_neg (ne_of_isDigit_of_not hc (d := '-') (by decide)), hv]
    rfl

/-! ## Success shape of `str_to_share` -/

theorem str_to_share_eval (s ds payload : List Char) (x : Int) (bs : List Nat)
    (hsplit : pySplitColon (pyStrip s) = [ds, payload])
    (hint : pyInt ds = some x)
    (hb64 : b64decode payload = some bs)
    (heven : bs.length % 2 = 0)
    (hx : 0 < x)
    (hy : ∀ v ∈ fromBytes2 bs, 0 ≤ v ∧ v < PRIME) :
    str_to_share s = some ((fromBytes2 bs).map (fun v => (x, v))) := by
  unfold str_to_share
  rw [hsplit]
  show strToShareChecks (pyInt ds) (b64decode payload) = _
  rw [hint, hb64]
  simp only [strToShareChecks]
  rw [if_neg (by omega), if_neg (by omega), if_neg ?hany]
  case hany =>
    rw [List.any_eq_true]
    rintro ⟨v, hv, hfail⟩
    have := hy v hv
    simp at hfail
    omega

/-! ## Claim C5: failure on duplicate x values -/

/-- C5 counterexample: on a duplicated `x`, `recover_secret` raises
`ValueError` (the explicit `raise` in `lagrange_interp`), not
`ArithmeticError` as the claim states. -/
theorem recover_secret_duplicate_x_counterexample :
    recover_secret [(1, 0), (1, 1)] = .error (.valueError "Duplicate x values in shares.") ∧
    ∀ msg, recover_secret [(1, 0), (1, 1)] ≠ .error (.arithmeticError msg) := by
  refine ⟨rfl, ?_⟩
  intro msg h
  rw [show recover_secret [(1, 0), (1, 1)] =
      .error (.valueError "Duplicate x values in shares.") from rfl] at h
  simp at h

/-- C5 (amended): for every point list containing a duplicated `x`,
`recover_secret` raises `ValueError` with message
"Duplicate x values in shares." (not `ArithmeticError`). -/
theorem recover_secret_duplicate_x_value_error (ps : List (Int × Int))
    (h : ¬ (ps.map Prod.fst).Nodup) :
    recover_secret ps = .error (.valueError "Duplicate x values in shares.") := by
  match ps with
  | [] => simp at h
  | p :: rest =>
    show lagrange_interp ((p :: rest).map Prod.fst) ((p :: rest).map Prod.snd) PRIME = _
    unfold lagrange_interp
    rw [if_pos (fun heq => h ((dedup_length_eq_iff _).mp heq))]

/-- Witness for C5's amended theorem at a concrete duplicated-x input. -/
theorem recover_secret_duplicate_x_value_error_witness :
    recover_secret [(1, 0), (1, 1)] = .error (.valueError "Duplicate x values in shares.") :=
  recover_secret_duplicate_x_value_error [(1, 0), (1, 1)] (by decide)

/-! ## Claim C8: `validate_shares` crashes on empty shares -/

/-- C8: on two or more shares that are all empty (a value `str_to_share` can
produce, see C9), `validate_shares` raises `IndexError` at `s[0]` instead of
returning a `(bool, str)` verdict. -/
theorem validate_shares_empty_share_crash (shares : List (List (Int × Int)))
    (h2 : 2 ≤ shares.length) (hall : ∀ s ∈ shares, s = []) :
    validate_shares shares = .error (.indexError "list index out of range") := by
  unfold validate_shares
  rw [if_neg (by omega)]
  have hmapne : shares.map List.length ≠ [] := by
    cases shares with
    | nil => simp at h2
    | cons s rest => simp
  have hded : (shares.map List.length).dedup = [0] := by
    refine dedup_all_eq hmapne ?_
    intro a ha
    obtain ⟨s, hs, rfl⟩ := List.mem_map.mp ha
    rw [hall s hs]
    rfl
  rw [if_neg (by rw [hded]; simp)]
  obtain ⟨s, rest, rfl⟩ : ∃ s rest, shares = s :: rest := by
    cases shares with
    | nil => simp at h2
    | cons s rest => exact ⟨s, rest, rfl⟩
  rw [hall s (List.mem_cons_self s rest)]
  rfl

/-- Witness for C8 at the concrete share set `[[], []]`. -/
theorem validate_shares_empty_share_crash_witness :
    validate_shares [[], []] = .error (.indexError "list index out of range") :=
  validate_shares_empty_share_crash [[], []] (by decide) (by decide)

/-! ## Claim C7: validator correctness -/

theorem headIndices_ok (shares : List (List (Int × Int))) (h : ∀ s ∈ shares, s ≠ []) :
    headIndices shares = .ok (shares.map (fun s => (s.headD (0, 0)).1)) := by
  induction shares with
  | nil => rfl
  | cons s rest ih =>
    cases s with
    | nil => exact absurd rfl (h [] (List.mem_cons_self _ _))
    | cons p t =>
      show (match headIndices rest with
        | Except.error e => (Except.error e : Except PyErr (List Int))
        | Except.ok idxs => Except.ok (p.1 :: idxs)) = _
      rw [ih (fun x hx => h x (List.mem_cons_of_mem _ hx))]
      rfl

/-- C7: with every share nonempty, `validate_shares` returns the too-few
verdict below 2 shares; the length-mismatch verdict when two shares differ in
length; exactly `(false, "Duplicate share indices.")` when lengths agree but
two shares carry the same first `x`; and success otherwise. -/
theorem validate_shares_correct (shares : List (List (Int × Int)))
    (hne : ∀ s ∈ shares, s ≠ []) :
    (shares.length < 2 → validate_shares shares = .ok (false, "At least 2 shares needed.")) ∧
    (2 ≤ shares.length →
      (∃ a ∈ shares, ∃ b ∈ shares, a.length ≠ b.length) →
      validate_shares shares = .ok (false, "Shares length mismatch.")) ∧
    (2 ≤ shares.length →
      (∀ a ∈ shares, ∀ b ∈ shares, a.length = b.length) →
      ¬ (shares.map (fun s => (s.headD (0, 0)).1)).Nodup →
      validate_shares shares = .ok (false, "Duplicate share indices.")) ∧
    (2 ≤ shares.length →
      (∀ a ∈ shares, ∀ b ∈ shares, a.length = b.length) →
      (shares.map (fun s => (s.headD (0, 0)).1)).Nodup →
      validate_shares shares = .ok (true, "")) := by
  have hlen : shares ≠ [] → ((shares.map List.length).dedup.length = 1 ↔
      ∀ a ∈ shares, ∀ b ∈ shares, a.length = b.length) := by
    intro hs
    rw [all_pairs_eq_iff_dedup_one _ (by simpa using hs)]
    constructor
    · intro h a ha b hb
      exact h a.length (List.mem_map_of_mem _ ha) b.length (List.mem_map_of_mem _ hb)
    · rintro h a ha b hb
      obtain ⟨sa, hsa, rfl⟩ := List.mem_map.mp ha
      obtain ⟨sb, hsb, rfl⟩ := List.mem_map.mp hb
      exact h sa hsa sb hsb
  have hne2 : 2 ≤ shares.length → shares ≠ [] := by
    intro h2 h
    rw [h] at h2
    simp at h2
  refine ⟨?_, ?_, ?_, ?_⟩
  · intro h
    unfold validate_shares
    rw [if_pos h]
  · rintro h2 ⟨a, ha, b, hb, hab⟩
    unfold validate_shares
    rw [if_neg (by omega), if_pos (fun heq => hab (((hlen (hne2 h2)).mp heq) a ha b hb))]
  · intro h2 heq hdup
    unfold validate_shares
    rw [if_neg (by omega), if_neg (fun hc => hc ((hlen (hne2 h2)).mpr heq)),
      headIndices_ok shares hne]
    simp only [validateIdx]
    rw [if_pos (fun hc => hdup ((dedup_length_eq_iff _).mp hc))]
  · intro h2 heq hnd
    unfold validate_shares
    rw [if_neg (by omega), if_neg (fun hc => hc ((hlen (hne2 h2)).mpr heq)),
      headIndices_ok shares hne]
    simp only [validateIdx]
    rw [if_neg (fun hc => hc ((dedup_length_eq_iff _).mpr hnd))]

/-- Witness for C7: all four verdicts exercised at concrete share sets. -/
theorem validate_shares_correct_witness :
    validate_shares [[(1, 0)]] = .ok (false, "At least 2 shares needed.") ∧
    validate_shares [[(1, 0)], [(2, 0), (2, 1)]] = .ok (false, "Shares length mismatch.") ∧
    validate_shares [[(1, 0)], [(1, 5)]] = .ok (false, "Duplicate share indices.") ∧
    validate_shares [[(1, 0)], [(2, 5)]] = .ok (true, "") := by
  refine ⟨?_, ?_, ?_, ?_⟩
  · exact (validate_shares_correct [[(1, 0)]] (by decide)).1 (by decide)
  · exact (validate_shares_correct [[(1, 0)], [(2, 0), (2, 1)]] (by decide)).2.1 (by decide)
      ⟨[(1, 0)], by decide, [(2, 0), (2, 1)], by decide, by decide⟩
  · exact (validate_shares_correct [[(1, 0)], [(1, 5)]] (by decide)).2.2.1 (by decide)
      (by decide) (by decide)
  · exact (validate_shares_correct [[(1, 0)], [(2, 5)]] (by decide)).2.2.2 (by decide)
      (by decide) (by decide)

/-! ## Claim C9: empty-payload tokens give a falsy success -/

/-- C9: a token "d…d:" made of a positive decimal numeral and an empty base64
payload deserializes successfully to the empty share `[]` — distinct from the
failure value `none`, yet with the same Python truthiness. -/
theorem str_to_share_empty_payload_falsy (ds : List Char) (v : Nat)
    (hd : ∀ c ∈ ds, c.isDigit = true) (hne : ds ≠ [])
    (hv : parseDigits ds = some v) (hpos : 0 < v) :
    str_to_share (ds ++ [':']) = some [] ∧
      some ([] : List (Int × Int)) ≠ none ∧
      pyTruthy (str_to_share (ds ++ [':'])) = pyTruthy none := by
  have hnospace : ∀ c ∈ ds ++ [':'], pyIsSpace c = false := by
    intro c hc
    rcases List.mem_append.mp hc with hc | hc
    · exact digit_not_space (hd c hc)
    · simp at hc
      rw [hc]
      rfl
  have hsplit : pySplitColon (pyStrip (ds ++ [':'])) = [ds, []] := by
    rw [pyStrip_eq_self hnospace,
      show ds ++ [':'] = ds ++ ':' :: [] from rfl,
      pySplitColon_append ds [] (fun c hc => ne_of_isDigit_of_not (hd c hc) (by decide))]
    rfl
  have hmain : str_to_share (ds ++ [':']) = some [] := by
    have hres := str_to_share_eval (ds ++ [':']) ds [] (v : Int) []
      hsplit (pyInt_digits hd hne hv) rfl rfl (by exact_mod_cast hpos)
      (by intro v hv2; simp [fromBytes2] at hv2)
    simpa using hres
  refine ⟨hmain, by simp, by rw [hmain]; rfl⟩

/-- Witness for C9 at the concrete token "1:". -/
theorem str_to_share_empty_payload_falsy_witness :
    str_to_share ['1', ':'] = some [] ∧
      some ([] : List (Int × Int)) ≠ none ∧
      pyTruthy (str_to_share ['1', ':']) = pyTruthy none :=
  str_to_share_empty_payload_falsy ['1'] 1 (by decide) (by decide) rfl (by decide)

/-! ## Claim C6: deserialization failure cases -/

theorem strToShareSplit_ne_two (l : List (List Char)) (h : l.length ≠ 2) :
    strToShareSplit l = none := by
  match l with
  | [] => rfl
  | [a] => rfl
  | [a, b] => exact absurd rfl h
  | a :: b :: c :: rest => rfl

/-- C6: `str_to_share` never raises (it total-returns a share or `none`), and
it returns `none` whenever the stripped token does not split into exactly two
parts at `':'`, the `x` part does not parse as an integer, the parsed `x` is
nonpositive, the decoded base64 payload has odd length, or any decoded `y`
lies outside `[0, PRIME)`. -/
theorem str_to_share_failure_cases (s : List Char) :
    (str_to_share s = none ∨ ∃ sh, str_to_share s = some sh) ∧
    ((pySplitColon (pyStrip s)).length ≠ 2 → str_to_share s = none) ∧
    (∀ xStr yB64, pySplitColon (pyStrip s) = [xStr, yB64] →
      (pyInt xStr = none → str_to_share s = none) ∧
      (∀ x : Int, pyInt xStr = some x → x ≤ 0 → str_to_share s = none) ∧
      (∀ bs, b64decode yB64 = some bs → bs.length % 2 = 1 → str_to_share s = none) ∧
      (∀ bs, b64decode yB64 = some bs →
        (∃ v ∈ fromBytes2 bs, ¬(0 ≤ v ∧ v < PRIME)) → str_to_share s = none)) := by
  refine ⟨?_, ?_, ?_⟩
  · cases h : str_to_share s with
    | none => exact Or.inl rfl
    | some sh => exact Or.inr ⟨sh, rfl⟩
  · intro h
    unfold str_to_share
    exact strToShareSplit_ne_two _ h
  · intro xStr yB64 hsplit
    have hstep : str_to_share s = strToShareChecks (pyInt xStr) (b64decode yB64) := by
      unfold str_to_share
      rw [hsplit]
      rfl
    refine ⟨?_, ?_, ?_, ?_⟩
    · intro hint
      rw [hstep, hint]
      rfl
    · intro x hint hx0
      rw [hstep, hint]
      cases hb : b64decode yB64 with
      | none => rfl
      | some bs =>
        simp only [strToShareChecks]
        by_cases hp : bs.length % 2 ≠ 0
        · rw [if_pos hp]
        · rw [if_neg hp, if_pos hx0]
    · intro bs hb64 hodd
      rw [hstep, hb64]
      cases hint : pyInt xStr with
      | none => rfl
      | some x =>
        simp only [strToShareChecks]
        rw [if_pos (by omega)]
    · rintro bs hb64 ⟨v, hv, hvr⟩
      rw [hstep, hb64]
      cases hint : pyInt xStr with
      | none => rfl
      | some x =>
        simp only [strToShareChecks]
        by_cases hp : bs.length % 2 ≠ 0
        · rw [if_pos hp]
        · rw [if_neg hp]
          by_cases hx0 : x ≤ 0
          · rw [if_pos hx0]
          · rw [if_neg hx0, if_pos (List.any_eq_true.mpr ⟨v, hv,
              by simp only [Bool.not_eq_true', decide_eq_false_iff_not]; exact hvr⟩)]

/-- Witness for C6: each failure case exercised on a concrete token
(no separator; non-numeric `x`; `x = 0`; odd payload; decoded `y = 257`). -/
theorem str_to_share_failure_cases_witness :
    str_to_share ['a', 'b'] = none ∧
    str_to_share ['x', ':'] = none ∧
    str_to_share ['0', ':', 'A', 'A', 'A', '='] = none ∧
    str_to_share ['1', ':', 'A', 'A', '=', '='] = none ∧
    str_to_share ['1', ':', 'A', 'Q', 'E', '='] = none := by
  refine ⟨?_, ?_, ?_, ?_, ?_⟩
  · exact (str_to_share_failure_cases ['a', 'b']).2.1 (by decide)
  · exact ((str_to_share_failure_cases ['x', ':']).2.2 ['x'] [] (by decide)).1 (by decide)
  · exact ((str_to_share_failure_cases ['0', ':', 'A', 'A', 'A', '=']).2.2
      ['0'] ['A', 'A', 'A', '='] (by decide)).2.1 0 (by decide) (by decide)
  · exact ((str_to_share_failure_cases ['1', ':', 'A', 'A', '=', '=']).2.2
      ['1'] ['A', 'A', '=', '='] (by decide)).2.2.1 [0] (by decide) (by decide)
  · exact ((str_to_share_failure_cases ['1', ':', 'A', 'Q', 'E', '=']).2.2
      ['1'] ['A', 'Q', 'E', '='] (by decide)).2.2.2 [1, 1] (by decide) (by decide)

/-! ## base64 round trip -/

theorem b64CharVal_b64Char : ∀ v < 64, b64CharVal (b64Char v) = some v := by decide

theorem b64Char_mem_alphabet : ∀ v < 64, b64Char v ∈ b64Alphabet := by decide

theorem b64CharVal_ne_eq {c : Char} {v : Nat} (hc : b64CharVal c = some v) : c ≠ '=' := by
  intro e
  rw [e, show b64CharVal '=' = none from by decide] at hc
  cases hc

theorem a2bLoop_data0 (c : Char) (v : Nat) (hc : b64CharVal c = some v)
    (rest : List Char) (left pads : Nat) :
    a2bLoop (c :: rest) 0 left pads = a2bLoop rest 1 v 0 := by
  conv_lhs => unfold a2bLoop
  rw [if_neg (b64CharVal_ne_eq hc), hc]

theorem a2bLoop_data1 (c : Char) (v : Nat) (hc : b64CharVal c = some v)
    (rest : List Char) (left pads : Nat) :
    a2bLoop (c :: rest) 1 left pads =
      (a2bLoop rest 2 (v % 16) 0).map (fun bs => (left * 4 + v / 16) :: bs) := by
  conv_lhs => unfold a2bLoop
  rw [if_neg (b64CharVal_ne_eq hc), hc]

theorem a2bLoop_data2 (c : Char) (v : Nat) (hc : b64CharVal c = some v)
    (rest : List Char) (left pads : Nat) :
    a2bLoop (c :: rest) 2 left pads =
      (a2bLoop rest 3 (v % 4) 0).map (fun bs => (left * 16 + v / 4) :: bs) := by
  conv_lhs => unfold a2bLoop
  rw [if_neg (b64CharVal_ne_eq hc), hc]

theorem a2bLoop_data3 (c : Char) (v : Nat) (hc : b64CharVal c = some v)
    (rest : List Char) (left pads : Nat) :
    a2bLoop (c :: rest) 3 left pads =
      (a2bLoop rest 0 0 0).map (fun bs => (left * 64 + v) :: bs) := by
  conv_lhs => unfold a2bLoop
  rw [if_neg (b64CharVal_ne_eq hc), hc]

theorem a2bLoop_pad_done (rest : List Char) (qp left pads : Nat)
    (h : 2 ≤ qp ∧ 4 ≤ qp + (pads + 1)) :
    a2bLoop ('=' :: rest) qp left pads = some [] := by
  conv_lhs => unfold a2bLoop
  rw [if_pos rfl, if_pos h]

theorem a2bLoop_pad_cont (rest : List Char) (qp left pads : Nat)
    (h : ¬(2 ≤ qp ∧ 4 ≤ qp + (pads + 1))) :
    a2bLoop ('=' :: rest) qp left pads = a2bLoop rest qp left (pads + 1) := by
  conv_lhs => unfold a2bLoop
  rw [if_pos rfl, if_neg h]

/-- Decoding inverts encoding: `a2b_base64(b64encode(bs)) = bs` for byte
lists. -/
theorem a2bLoop_b64encode : ∀ (bs : List Nat), (∀ b ∈ bs, b < 256) →
    a2bLoop (b64encode bs) 0 0 0 = some bs
  | [], _ => rfl
  | [b1], h => by
    have h1 : b1 < 256 := h b1 (List.mem_cons_self _ _)
    show a2bLoop [b64Char (b1 / 4), b64Char (b1 % 4 * 16), '=', '='] 0 0 0 = some [b1]
    rw [a2bLoop_data0 _ _ (b64CharVal_b64Char _ (by omega)),
      a2bLoop_data1 _ _ (b64CharVal_b64Char _ (by omega)),
      a2bLoop_pad_cont _ _ _ _ (by omega),
      a2bLoop_pad_done _ _ _ _ (by omega)]
    simp only [Option.map_some', Option.some.injEq, List.cons.injEq, and_true]
    omega
  | [b1, b2], h => by
    have h1 : b1 < 256 := h b1 (List.mem_cons_self _ _)
    have h2 : b2 < 256 := h b2 (by simp)
    show a2bLoop [b64Char (b1 / 4), b64Char (b1 % 4 * 16 + b2 / 16),
      b64Char (b2 % 16 * 4), '='] 0 0 0 = some [b1, b2]
    rw [a2bLoop_data0 _ _ (b64CharVal_b64Char _ (by omega)),
      a2bLoop_data1 _ _ (b64CharVal_b64Char _ (by omega)),
      a2bLoop_data2 _ _ (b64CharVal_b64Char _ (by omega)),
      a2bLoop_pad_done _ _ _ _ (by omega)]
    simp only [Option.map_some', Option.some.injEq, List.cons.injEq, and_true]
    omega
  | b1 :: b2 :: b3 :: rest, h => by
    have h1 : b1 < 256 := h b1 (List.mem_cons_self _ _)
    have h2 : b2 < 256 := h b2 (by simp)
    have h3 : b3 < 256 := h b3 (by simp)
    have ih := a2bLoop_b64encode rest (fun b hb => h b (by simp [hb]))
    show a2bLoop (b64Char (b1 / 4) :: b64Char (b1 % 4 * 16 + b2 / 16) ::
      b64Char (b2 % 16 * 4 + b3 / 64) :: b64Char (b3 % 64) :: b64encode rest) 0 0 0 =
      some (b1 :: b2 :: b3 :: rest)
    rw [a2bLoop_data0 _ _ (b64CharVal_b64Char _ (by omega)),
      a2bLoop_data1 _ _ (b64CharVal_b64Char _ (by omega)),
      a2bLoop_data2 _ _ (b64CharVal_b64Char _ (by omega)),
      a2bLoop_data3 _ _ (b64CharVal_b64Char _ (by omega)), ih]
    simp only [Option.map_some', Option.some.injEq, List.cons.injEq, and_true]
    refine ⟨by omega, by omega, by omega⟩

theorem b64encode_chars : ∀ (bs : List Nat), (∀ b ∈ bs, b < 256) →
    ∀ c ∈ b64encode bs, c ∈ b64Alphabet ∨ c = '='
  | [], _ => by simp [b64encode]
  | [b1], h => by
    have h1 : b1 < 256 := h b1 (List.mem_cons_self _ _)
    show ∀ c ∈ [b64Char (b1 / 4), b64Char (b1 % 4 * 16), '=', '='], _
    intro c hc
    simp only [List.mem_cons, List.not_mem_nil, or_false] at hc
    rcases hc with rfl | rfl | rfl | rfl
    · exact Or.inl (b64Char_mem_alphabet _ (by omega))
    · exact Or.inl (b64Char_mem_alphabet _ (by omega))
    · exact Or.inr rfl
    · exact Or.inr rfl
  | [b1, b2], h => by
    have h1 : b1 < 256 := h b1 (List.mem_cons_self _ _)
    have h2 : b2 < 256 := h b2 (by simp)
    show ∀ c ∈ [b64Char (b1 / 4), b64Char (b1 % 4 * 16 + b2 / 16),
      b64Char (b2 % 16 * 4), '='], _
    intro c hc
    simp only [List.mem_cons, List.not_mem_nil, or_false] at hc
    rcases hc with rfl | rfl | rfl | rfl
    · exact Or.inl (b64Char_mem_alphabet _ (by omega))
    · exact Or.inl (b64Char_mem_alphabet _ (by omega))
    · exact Or.inl (b64Char_mem_alphabet _ (by omega))
    · exact Or.inr rfl
  | b1 :: b2 :: b3 :: rest, h => by
    have h1 : b1 < 256 := h b1 (List.mem_cons_self _ _)
    have h2 : b2 < 256 := h b2 (by simp)
    have h3 : b3 < 256 := h b3 (by simp)
    have ih := b64encode_chars rest (fun b hb => h b (by simp [hb]))
    show ∀ c ∈ b64Char (b1 / 4) :: b64Char (b1 % 4 * 16 + b2 / 16) ::
      b64Char (b2 % 16 * 4 + b3 / 64) :: b64Char (b3 % 64) :: b64encode rest, _
    intro c hc
    simp only [List.mem_cons] at hc
    rcases hc with rfl | rfl | rfl | rfl | hc
    · exact Or.inl (b64Char_mem_alphabet _ (by omega))
    · exact Or.inl (b64Char_mem_alphabet _ (by omega))
    · exact Or.inl (b64Char_mem_alphabet _ (by omega))
    · exact Or.inl (b64Char_mem_alphabet _ (by omega))
    · exact ih c hc

theorem b64Alphabet_char_facts :
    ∀ c ∈ b64Alphabet, pyIsSpace c = false ∧ c ≠ ':' ∧ c.toNat < 128 := by decide

theorem b64encode_char_facts {bs : List Nat} (h : ∀ b ∈ bs, b < 256) :
    ∀ c ∈ b64encode bs, pyIsSpace c = false ∧ c ≠ ':' ∧ c.toNat < 128 := by
  intro c hc
  rcases b64encode_chars bs h c hc with hm | rfl
  · exact b64Alphabet_char_facts c hm
  · exact ⟨rfl, by decide, by decide⟩

/-! ## Byte-payload round trip -/

theorem toBytes2BE_flatten_bound {ys : List Int} (hy : ∀ y ∈ ys, 0 ≤ y ∧ y < 257) :
    ∀ b ∈ (ys.map toBytes2BE).flatten, b < 256 := by
  induction ys with
  | nil => simp
  | cons y t ih =>
    intro b hb
    have hyy := hy y (List.mem_cons_self _ _)
    simp only [List.map_cons, List.flatten_cons, List.mem_append] at hb
    rcases hb with hb | hb
    · simp only [toBytes2BE, List.mem_cons, List.not_mem_nil, or_false] at hb
      rcases hb with rfl | rfl
      · omega
      · omega
    · exact ih (fun z hz => hy z (List.mem_cons_of_mem _ hz)) b hb

theorem toBytes2BE_flatten_length (ys : List Int) :
    ((ys.map toBytes2BE).flatten).length = 2 * ys.length := by
  induction ys with
  | nil => rfl
  | cons y t ih =>
    simp only [List.map_cons, List.flatten_cons, List.length_append, ih, toBytes2BE]
    simp
    omega

theorem fromBytes2_toBytes2BE {ys : List Int} (hy : ∀ y ∈ ys, 0 ≤ y ∧ y < 257) :
    fromBytes2 ((ys.map toBytes2BE).flatten) = ys := by
  induction ys with
  | nil => rfl
  | cons y t ih =>
    have hyy := hy y (List.mem_cons_self _ _)
    show fromBytes2 (y.toNat / 256 :: y.toNat % 256 :: (t.map toBytes2BE).flatten) = y :: t
    rw [show fromBytes2 (y.toNat / 256 :: y.toNat % 256 :: (t.map toBytes2BE).flatten) =
      ((y.toNat / 256 * 256 + y.toNat % 256 : Nat) : Int) ::
        fromBytes2 ((t.map toBytes2BE).flatten) from rfl,
      ih (fun z hz => hy z (List.mem_cons_of_mem _ hz))]
    have : (y.toNat / 256 * 256 + y.toNat % 256 : Nat) = y.toNat := by omega
    rw [this, Int.toNat_of_nonneg hyy.1]

/-! ## Well-formed token success -/

/-- Any token "digits:base64(payload)" with a positive numeric value and
in-range `y` values deserializes to the expected share. -/
theorem str_to_share_of_token (ds : List Char) (v : Nat) (ys : List Int)
    (hd : ∀ c ∈ ds, c.isDigit = true) (hne : ds ≠ [])
    (hv : parseDigits ds = some v) (hpos : 0 < v)
    (hy : ∀ y ∈ ys, 0 ≤ y ∧ y < 257) :
    str_to_share (ds ++ ':' :: b64encode ((ys.map toBytes2BE).flatten)) =
      some (ys.map (fun y => ((v : Int), y))) := by
  have hbb : ∀ b ∈ (ys.map toBytes2BE).flatten, b < 256 := toBytes2BE_flatten_bound hy
  have hpc := b64encode_char_facts hbb
  have hnospace : ∀ c ∈ ds ++ ':' :: b64encode ((ys.map toBytes2BE).flatten),
      pyIsSpace c = false := by
    intro c hc
    rcases List.mem_append.mp hc with hc | hc
    · exact digit_not_space (hd c hc)
    · rcases List.mem_cons.mp hc with rfl | hc
      · rfl
      · exact (hpc c hc).1
  have hsplit : pySplitColon (pyStrip (ds ++ ':' :: b64encode ((ys.map toBytes2BE).flatten))) =
      [ds, b64encode ((ys.map toBytes2BE).flatten)] := by
    rw [pyStrip_eq_self hnospace,
      pySplitColon_append ds _ (fun c hc => ne_of_isDigit_of_not (hd c hc) (by decide)),
      pySplitColon_no_colon (fun c hc => (hpc c hc).2.1)]
  have hb64 : b64decode (b64encode ((ys.map toBytes2BE).flatten)) =
      some ((ys.map toBytes2BE).flatten) := by
    unfold b64decode
    rw [if_pos (List.all_eq_true.mpr (fun c hc => decide_eq_true (hpc c hc).2.2))]
    exact a2bLoop_b64encode _ hbb
  have hres := str_to_share_eval _ ds _ (v : Int) _ hsplit
    (pyInt_digits hd hne hv) hb64
    (by rw [toBytes2BE_flatten_length]; omega)
    (by exact_mod_cast hpos)
    (by
      rw [fromBytes2_toBytes2BE hy]
      intro z hz
      have := hy z hz
      unfold PRIME
      omega)
  rw [hres, fromBytes2_toBytes2BE hy]

/-! ## Claim C2: serialization round trip -/

set_option maxRecDepth 8000 in
theorem natRepr_facts : ∀ m, m < 257 →
    ((natRepr m).all Char.isDigit = true ∧ natRepr m ≠ [] ∧
      parseDigits (natRepr m) = some m) := by decide

theorem map_const_fst_eq_self (share : List (Int × Int)) (x : Int)
    (hx : ∀ p ∈ share, p.1 = x) : share.map (fun p => (x, p.2)) = share := by
  induction share with
  | nil => rfl
  | cons p t ih =>
    have hp := hx p (List.mem_cons_self _ _)
    simp only [List.map_cons]
    rw [ih (fun q hq => hx q (List.mem_cons_of_mem _ hq)),
      show (x, p.2) = p from by rw [← hp]]

/-- C2: serializing any valid share (nonempty, constant `x` in `[1, 256]`,
all `y` in `[0, 257)`) and deserializing returns the original share. -/
theorem share_serialization_round_trip (share : List (Int × Int)) (x : Int)
    (hne : share ≠ []) (hx : ∀ p ∈ share, p.1 = x) (hx1 : 1 ≤ x) (hx2 : x ≤ 256)
    (hy : ∀ p ∈ share, 0 ≤ p.2 ∧ p.2 < 257) :
    str_to_share (share_to_str share) = some share := by
  have hxlt : x.toNat < 257 := by omega
  have hfacts := natRepr_facts x.toNat hxlt
  have hhead : (share.headD (0, 0)).1 = x := by
    cases share with
    | nil => exact absurd rfl hne
    | cons p t => exact hx p (List.mem_cons_self _ _)
  have hint : intRepr (share.headD (0, 0)).1 = natRepr x.toNat := by
    rw [hhead]
    unfold intRepr
    rw [if_neg (by omega)]
  have hmm : share.map (fun p => toBytes2BE p.2) = (share.map Prod.snd).map toBytes2BE := by
    rw [List.map_map]
    rfl
  have htok := str_to_share_of_token (natRepr x.toNat) x.toNat (share.map Prod.snd)
    (fun c hc => List.all_eq_true.mp hfacts.1 c hc)
    hfacts.2.1 hfacts.2.2 (by omega)
    (fun y hyy => by
      obtain ⟨p, hp, rfl⟩ := List.mem_map.mp hyy
      exact hy p hp)
  unfold share_to_str
  rw [hint, hmm, htok]
  congr 1
  rw [List.map_map]
  show share.map (fun p => (((x.toNat : Nat) : Int), p.2)) = share
  rw [Int.toNat_of_nonneg (by omega)]
  exact map_const_fst_eq_self share x hx

/-- Witness for C2 at the concrete share `[(2, 1), (2, 256)]` (containing the
extreme field value 256, which needs the second byte of the 2-byte width). -/
theorem share_serialization_round_trip_witness :
    str_to_share (share_to_str [((2 : Int), (1 : Int)), (2, 256)]) =
      some [((2 : Int), (1 : Int)), (2, 256)] :=
  share_serialization_round_trip _ 2 (by decide) (by decide) (by decide) (by decide)
    (by decide)

/-! ## Claim C10: no upper bound on the participant index -/

/-- C10: tokens whose decimal `x` is 257 or larger (outside the field) are
accepted by `str_to_share`, and a set of such shares with pairwise-distinct
`x` passes `validate_shares`. -/
theorem str_to_share_no_index_upper_bound
    (items : List (List Char × Nat × List Int))
    (h2 : 2 ≤ items.length)
    (hds : ∀ it ∈ items, (∀ c ∈ it.1, c.isDigit = true) ∧ it.1 ≠ [] ∧
      parseDigits it.1 = some it.2.1)
    (hbig : ∀ it ∈ items, 257 ≤ it.2.1)
    (hys : ∀ it ∈ items, it.2.2 ≠ [] ∧ ∀ y ∈ it.2.2, 0 ≤ y ∧ y < 257)
    (hlen : ∀ it1 ∈ items, ∀ it2 ∈ items, it1.2.2.length = it2.2.2.length)
    (hnd : (items.map (fun it => it.2.1)).Nodup) :
    (∀ it ∈ items,
      str_to_share (it.1 ++ ':' :: b64encode ((it.2.2.map toBytes2BE).flatten)) =
        some (it.2.2.map (fun y => ((it.2.1 : Int), y)))) ∧
    validate_shares (items.map (fun it => it.2.2.map (fun y => ((it.2.1 : Int), y)))) =
      .ok (true, "") := by
  constructor
  · intro it hit
    have h1 := hds it hit
    exact str_to_share_of_token it.1 it.2.1 it.2.2 h1.1 h1.2.1 h1.2.2
      (by have := hbig it hit; omega) (hys it hit).2
  · set shares := items.map (fun it => it.2.2.map (fun y => ((it.2.1 : Int), y))) with hsh
    have hsne : ∀ s ∈ shares, s ≠ [] := by
      intro s hs
      obtain ⟨it, hit, rfl⟩ := List.mem_map.mp hs
      have := (hys it hit).1
      simp [this]
    have hitems_ne : items ≠ [] := by
      cases items with
      | nil => simp at h2
      | cons a t => simp
    have hshne : shares ≠ [] := by
      rw [hsh]
      cases items with
      | nil => simp at h2
      | cons a t => simp
    unfold validate_shares
    rw [if_neg (by rw [hsh]; simp only [List.length_map]; omega)]
    rw [if_neg ?hlens]
    case hlens =>
      intro hc
      apply hc
      rw [(all_pairs_eq_iff_dedup_one _ (by simpa using hshne))]
      intro a ha b hb
      obtain ⟨sa, hsa, rfl⟩ := List.mem_map.mp ha
      obtain ⟨sb, hsb, rfl⟩ := List.mem_map.mp hb
      rw [hsh] at hsa hsb
      obtain ⟨ita, hita, rfl⟩ := List.mem_map.mp hsa
      obtain ⟨itb, hitb, rfl⟩ := List.mem_map.mp hsb
      simp only [List.length_map]
      exact hlen ita hita itb hitb
    rw [headIndices_ok shares hsne]
    simp only [validateIdx]
    rw [if_neg ?hdup]
    case hdup =>
      intro hc
      apply hc
      apply (dedup_length_eq_iff _).mpr
      have hmap : shares.map (fun s => (s.headD (0, 0)).1) =
          items.map (fun it => ((it.2.1 : Nat) : Int)) := by
        rw [hsh, List.map_map]
        apply List.map_congr_left
        intro it hit
        obtain ⟨y0, t, hy0⟩ : ∃ y0 t, it.2.2 = y0 :: t := by
          cases hyt : it.2.2 with
          | nil => exact absurd hyt (hys it hit).1
          | cons y0 t => exact ⟨y0, t, rfl⟩
        simp [hy0]
      rw [hmap]
      have h1 : ((items.map (fun it => it.2.1)).map (fun n : Nat => (n : Int))).Nodup :=
        hnd.map (fun a b hab => by exact_mod_cast hab)
      rw [List.map_map] at h1
      exact h1

/-- Witness for C10: tokens "257:AAA=" and "258:AAA=" (indices outside the
field) both deserialize, and the resulting share set validates. -/
theorem str_to_share_no_index_upper_bound_witness :
    str_to_share (['2', '5', '7'] ++ ':' ::
        b64encode (([(0 : Int)].map toBytes2BE).flatten)) =
      some ([(0 : Int)].map (fun y => (((257 : Nat) : Int), y))) ∧
    validate_shares
        ([(['2', '5', '7'], (257 : Nat), [(0 : Int)]),
          (['2', '5', '8'], (258 : Nat), [(0 : Int)])].map
          (fun it => it.2.2.map (fun y => ((it.2.1 : Int), y)))) = .ok (true, "") := by
  have h := str_to_share_no_index_upper_bound
    [(['2', '5', '7'], 257, [0]), (['2', '5', '8'], 258, [0])]
    (by decide) (by decide) (by decide) (by decide) (by decide) (by decide)
  exact ⟨h.1 _ (List.mem_cons_self _ _), h.2⟩

/-! ## Casts between the Int embedding and ZMod 257 -/

theorem intCast_emod_257 (a : Int) : ((a % (257 : Int) : Int) : ZMod 257) = (a : ZMod 257) := by
  exact_mod_cast ZMod.intCast_mod a 257

theorem int_eq_of_cast_eq {a b : Int} (ha0 : 0 ≤ a) (ha1 : a < 257) (hb0 : 0 ≤ b)
    (hb1 : b < 257) (h : (a : ZMod 257) = (b : ZMod 257)) : a = b := by
  have hmod := (ZMod.intCast_eq_intCast_iff' a b 257).mp h
  rw [show ((257 : Nat) : Int) = (257 : Int) from rfl,
    Int.emod_eq_of_lt ha0 ha1, Int.emod_eq_of_lt hb0 hb1] at hmod
  exact hmod

/-- `modinv a 257` succeeds exactly as `pow(a, -1, 257)` does: whenever `a` is
nonzero mod 257 it returns the inverse, reduced into `[0, 257)`. -/
theorem modinv_ok {a : Int} (h : (a : ZMod 257) ≠ 0) :
    ∃ u : Int, modinv a 257 = .ok u ∧ 0 ≤ u ∧ u < 257 ∧
      (u : ZMod 257) = (a : ZMod 257)⁻¹ := by
  have hw : ∃ w ∈ List.range 257, (a * (w : Int) % 257 == 1) = true := by
    refine ⟨((a : ZMod 257)⁻¹).val, List.mem_range.mpr (ZMod.val_lt _), ?_⟩
    rw [beq_iff_eq]
    have hcast : ((a * ((((a : ZMod 257)⁻¹).val : Nat) : Int) % 257 : Int) : ZMod 257) =
        (((1 : Int)) : ZMod 257) := by
      rw [intCast_emod_257]
      push_cast
      rw [ZMod.natCast_rightInverse ((a : ZMod 257)⁻¹), mul_inv_cancel₀ h]
    exact int_eq_of_cast_eq (Int.emod_nonneg _ (by norm_num))
      (Int.emod_lt_of_pos _ (by norm_num)) (by norm_num) (by norm_num) hcast
  obtain ⟨u, hfind⟩ : ∃ u, (List.range 257).find?
      (fun (u : Nat) => a * (u : Int) % 257 == 1) = some u := by
    cases hfo : (List.range 257).find? (fun (u : Nat) => a * (u : Int) % 257 == 1) with
    | some u => exact ⟨u, rfl⟩
    | none =>
      rw [List.find?_eq_none] at hfo
      obtain ⟨w, hwm, hwp⟩ := hw
      exact absurd hwp (by simpa using hfo w hwm)
  have hmem := List.mem_range.mp (List.mem_of_find?_eq_some hfind)
  have hp := List.find?_some hfind
  rw [beq_iff_eq] at hp
  refine ⟨(u : Int), ?_, by positivity, by exact_mod_cast hmem, ?_⟩
  · unfold modinv
    rw [show (257 : Int).toNat = 257 from rfl, hfind]
  · have hcast : ((a * (u : Int) % 257 : Int) : ZMod 257) = (((1 : Int)) : ZMod 257) := by
      rw [hp]
    rw [intCast_emod_257] at hcast
    push_cast at hcast
    exact (inv_eq_of_mul_eq_one_right hcast).symm

/-! ## Specifications of the interpolation loops -/

theorem liLoop_spec (xi : Int) (i : Nat) (pairs : List (Nat × Int)) (li : Int)
    (hli0 : 0 ≤ li) (hli1 : li < 257)
    (hinv : ∀ jx ∈ pairs, jx.1 ≠ i → ((xi - jx.2 : Int) : ZMod 257) ≠ 0) :
    ∃ r : Int, liLoop xi 257 i pairs li = .ok r ∧ 0 ≤ r ∧ r < 257 ∧
      (r : ZMod 257) = (li : ZMod 257) *
        (pairs.map (fun jx => if jx.1 = i then (1 : ZMod 257)
          else (-(jx.2 : ZMod 257)) * ((xi : ZMod 257) - (jx.2 : ZMod 257))⁻¹)).prod := by
  induction pairs generalizing li with
  | nil => exact ⟨li, rfl, hli0, hli1, by simp⟩
  | cons jx rest ih =>
    obtain ⟨j, xj⟩ := jx
    by_cases hji : j = i
    · have hstep : liLoop xi 257 i ((j, xj) :: rest) li = liLoop xi 257 i rest li := by
        simp only [liLoop]
        rw [if_pos hji.symm]
      obtain ⟨r, hr, h0, h1, hcast⟩ := ih li hli0 hli1
        (fun jx2 hjx2 => hinv jx2 (List.mem_cons_of_mem _ hjx2))
      refine ⟨r, hstep.trans hr, h0, h1, ?_⟩
      rw [hcast]
      simp only [List.map_cons, List.prod_cons, if_pos hji, one_mul]
    · have hnz := hinv (j, xj) (List.mem_cons_self _ _) hji
      obtain ⟨u, hu, hu0, hu1, hucast⟩ := modinv_ok hnz
      have hstep : liLoop xi 257 i ((j, xj) :: rest) li =
          liLoop xi 257 i rest (li * (-xj) * u % 257) := by
        simp only [liLoop]
        rw [if_neg (fun hc => hji hc.symm), hu]
      obtain ⟨r, hr, h0, h1, hcast⟩ := ih (li * (-xj) * u % 257)
        (Int.emod_nonneg _ (by norm_num)) (Int.emod_lt_of_pos _ (by norm_num))
        (fun jx2 hjx2 => hinv jx2 (List.mem_cons_of_mem _ hjx2))
      refine ⟨r, hstep.trans hr, h0, h1, ?_⟩
      rw [hcast, intCast_emod_257]
      push_cast
      rw [hucast]
      push_cast
      simp only [List.map_cons, List.prod_cons, if_neg hji]
      ring

theorem totLoop_spec (xs : List Int) (items : List (Nat × (Int × Int))) (total : Int)
    (htot0 : 0 ≤ total) (htot1 : total < 257)
    (hinv : ∀ item ∈ items, ∀ jx ∈ xs.enum, jx.1 ≠ item.1 →
      ((item.2.1 - jx.2 : Int) : ZMod 257) ≠ 0) :
    ∃ r : Int, totLoop xs 257 items total = .ok r ∧ 0 ≤ r ∧ r < 257 ∧
      (r : ZMod 257) = (total : ZMod 257) +
        (items.map (fun item => (item.2.2 : ZMod 257) *
          (xs.enum.map (fun jx => if jx.1 = item.1 then (1 : ZMod 257)
            else (-(jx.2 : ZMod 257)) *
              ((item.2.1 : ZMod 257) - (jx.2 : ZMod 257))⁻¹)).prod)).sum := by
  induction items generalizing total with
  | nil => exact ⟨total, rfl, htot0, htot1, by simp⟩
  | cons item rest ih =>
    obtain ⟨i, xi, yi⟩ := item
    obtain ⟨li, hli, hli0, hli1, hlicast⟩ := liLoop_spec xi i xs.enum 1
      (by norm_num) (by norm_num)
      (fun jx hjx hne => hinv (i, xi, yi) (List.mem_cons_self _ _) jx hjx hne)
    have hstep : totLoop xs 257 ((i, xi, yi) :: rest) total =
        totLoop xs 257 rest ((total + yi * li) % 257) := by
      simp only [totLoop]
      rw [hli]
    obtain ⟨r, hr, h0, h1, hcast⟩ := ih ((total + yi * li) % 257)
      (Int.emod_nonneg _ (by norm_num)) (Int.emod_lt_of_pos _ (by norm_num))
      (fun it hit => hinv it (List.mem_cons_of_mem _ hit))
    refine ⟨r, hstep.trans hr, h0, h1, ?_⟩
    rw [hcast, intCast_emod_257]
    push_cast
    rw [hlicast]
    push_cast
    simp only [one_mul, List.map_cons, List.sum_cons]
    ring

theorem lagrange_interp_spec (xs ys : List Int) (hnd : xs.Nodup)
    (hinv : ∀ item ∈ (xs.zip ys).enum, ∀ jx ∈ xs.enum, jx.1 ≠ item.1 →
      ((item.2.1 - jx.2 : Int) : ZMod 257) ≠ 0) :
    ∃ r : Int, lagrange_interp xs ys 257 = .ok r ∧ 0 ≤ r ∧ r < 257 ∧
      (r : ZMod 257) =
        (((xs.zip ys).enum.map (fun item => (item.2.2 : ZMod 257) *
          (xs.enum.map (fun jx => if jx.1 = item.1 then (1 : ZMod 257)
            else (-(jx.2 : ZMod 257)) *
              ((item.2.1 : ZMod 257) - (jx.2 : ZMod 257))⁻¹)).prod)).sum) := by
  obtain ⟨r, hr, h0, h1, hcast⟩ := totLoop_spec xs ((xs.zip ys).enum) 0
    (le_refl 0) (by norm_num) hinv
  refine ⟨r, ?_, h0, h1, by rw [hcast]; push_cast; ring⟩
  unfold lagrange_interp
  rw [if_neg (fun hc => hc ((dedup_length_eq_iff _).mpr hnd))]
  exact hr

/-! ## Claim C4: recovery succeeds with no threshold check -/

/-- C4: for any nonempty point list with pairwise-distinct `x` in `[1, 256]`
and `y` in `[0, 257)`, `recover_secret` succeeds and returns a value in
`[0, 257)` — it never checks the point count against the split threshold. -/
theorem recover_secret_no_threshold_check (ps : List (Int × Int))
    (hne : ps ≠ [])
    (hx : ∀ p ∈ ps, 1 ≤ p.1 ∧ p.1 ≤ 256)
    (hnd : (ps.map Prod.fst).Nodup)
    (hy : ∀ p ∈ ps, 0 ≤ p.2 ∧ p.2 < 257) :
    ∃ r : Int, recover_secret ps = .ok r ∧ 0 ≤ r ∧ r < 257 := by
  have hzip : (ps.map Prod.fst).zip (ps.map Prod.snd) = ps := by
    rw [List.zip_map']
    simp
  have hinv : ∀ item ∈ ((ps.map Prod.fst).zip (ps.map Prod.snd)).enum,
      ∀ jx ∈ (ps.map Prod.fst).enum, jx.1 ≠ item.1 →
      ((item.2.1 - jx.2 : Int) : ZMod 257) ≠ 0 := by
    rw [hzip]
    intro item hitem jx hjx hne2
    obtain ⟨i, hi, hieq⟩ := List.mem_iff_getElem.mp hitem
    obtain ⟨j, hj, hjeq⟩ := List.mem_iff_getElem.mp hjx
    simp only [List.getElem_enum] at hieq hjeq
    have hilen : i < ps.length := by simpa using hi
    have hjlen : j < ps.length := by simpa using hj
    have hxi : item.2.1 = ps[i].1 := by rw [← hieq]
    have hxj : jx.2 = ps[j].1 := by
      rw [← hjeq]
      simp
    have hij : i ≠ j := by
      intro hc
      apply hne2
      rw [← hieq, ← hjeq]
      exact hc.symm
    have hxine : ps[i].1 ≠ ps[j].1 := by
      intro hc
      apply hij
      have hinj := List.nodup_iff_injective_get.mp hnd
      have : (ps.map Prod.fst).get ⟨i, by simpa using hilen⟩ =
          (ps.map Prod.fst).get ⟨j, by simpa using hjlen⟩ := by
        simp only [List.get_eq_getElem, List.getElem_map]
        exact hc
      exact congrArg Fin.val (hinj this)
    have hbi := hx ps[i] (List.getElem_mem hilen)
    have hbj := hx ps[j] (List.getElem_mem hjlen)
    rw [hxi, hxj]
    intro hc
    rw [ZMod.intCast_zmod_eq_zero_iff_dvd] at hc
    have : ps[i].1 = ps[j].1 := by omega
    exact hxine this
  obtain ⟨p0, rest, rfl⟩ : ∃ p0 rest, ps = p0 :: rest := by
    cases ps with
    | nil => exact absurd rfl hne
    | cons p0 rest => exact ⟨p0, rest, rfl⟩
  obtain ⟨r, hr, h0, h1, _⟩ := lagrange_interp_spec ((p0 :: rest).map Prod.fst)
    ((p0 :: rest).map Prod.snd) hnd hinv
  exact ⟨r, hr, h0, h1⟩

/-- Witness for C4: a single point (fewer than any threshold `k ≥ 2`) is
interpolated without failing. -/
theorem recover_secret_no_threshold_check_witness :
    ∃ r : Int, recover_secret [((1 : Int), (200 : Int))] = .ok r ∧ 0 ≤ r ∧ r < 257 :=
  recover_secret_no_threshold_check [(1, 200)] (by decide) (by decide) (by decide)
    (by decide)

/-! ## Claim C3: decoding failure on non-UTF-8 recovery -/

/-- C3 counterexample: these two equal-length shares recover the byte
sequence `[195, 169]` — both bytes outside ASCII — yet `decode_secret`
returns the string "é" (code point 233) instead of raising: Python's
`.decode()` is UTF-8, not ASCII. -/
theorem decode_secret_nonascii_counterexample :
    decodeBytesLoop (zipStar [[(1, 195), (1, 169)], [(2, 195), (2, 169)]]) =
      .ok [195, 169] ∧
    decode_secret [[(1, 195), (1, 169)], [(2, 195), (2, 169)]] = .ok [233] :=
  ⟨rfl, rfl⟩

/-- C3 (amended): `decode_secret` fails with a decoding error whenever the
recovered byte sequence is not valid UTF-8 (recovered non-ASCII bytes that do
form valid UTF-8 are returned as a non-ASCII string instead). -/
theorem decode_secret_invalid_utf8_fails (shares : List (List (Int × Int)))
    (bs : List Nat)
    (hrec : decodeBytesLoop (zipStar shares) = .ok bs)
    (hutf : utf8Decode bs = none) :
    decode_secret shares =
      .error (.unicodeDecodeError "invalid start byte or continuation byte") := by
  unfold decode_secret
  rw [hrec]
  simp only [decodeFinish]
  rw [hutf]

/-- Witness for C3's amended theorem: recovery of the lone byte 128 (a stray
continuation byte, invalid UTF-8) makes `decode_secret` raise. -/
theorem decode_secret_invalid_utf8_fails_witness :
    decode_secret [[(1, 128)], [(2, 128)]] =
      .error (.unicodeDecodeError "invalid start byte or continuation byte") :=
  decode_secret_invalid_utf8_fails [[(1, 128)], [(2, 128)]] [128] rfl rfl

/-! ## List indexing helpers -/

theorem getD_eq_get {α : Type} (l : List α) (d : α) (j : Nat) (h : j < l.length) :
    l.getD j d = l[j] := by
  rw [List.getD_eq_getElem?_getD, List.getElem?_eq_getElem h, Option.getD_some]

theorem enum_map_eq_ofFn {α β : Type} (l : List α) (g : Nat × α → β) :
    l.enum.map g = List.ofFn (fun j : Fin l.length => g (j.val, l.get j)) := by
  apply List.ext_getElem
  · simp
  · intro i h1 h2
    simp [List.getElem_enum, List.get_eq_getElem]

theorem enum_map_pt {α β : Type} (l : List α) (f : α → β) :
    (l.map f).enum = l.enum.map (fun ia => (ia.1, f ia.2)) := by
  apply List.ext_getElem
  · simp
  · intro i h1 h2
    simp [List.getElem_enum]

theorem intCast_list_sum (l : List Int) :
    ((l.sum : Int) : ZMod 257) = (l.map (fun a : Int => (a : ZMod 257))).sum := by
  induction l with
  | nil => simp
  | cons a t ih => simp [ih]

/-! ## Cast of `eval_poly` into ZMod 257 -/

theorem eval_poly_cast (c : List Int) (x : Int) :
    ((eval_poly c x 257 : Int) : ZMod 257) =
      ∑ t ∈ Finset.range c.length, ((c.getD t 0 : Int) : ZMod 257) * (x : ZMod 257) ^ t := by
  unfold eval_poly
  rw [intCast_emod_257, intCast_list_sum, List.map_map, enum_map_eq_ofFn, List.sum_ofFn,
    ← Fin.sum_univ_eq_sum_range
      (fun t => ((c.getD t 0 : Int) : ZMod 257) * (x : ZMod 257) ^ t) c.length]
  apply Finset.sum_congr rfl
  intro j _
  show ((c.get j * (x ^ (j : Nat) % 257) : Int) : ZMod 257) = _
  push_cast
  rw [intCast_emod_257]
  push_cast
  rw [List.get_eq_getElem, ← getD_eq_get c 0 j.val j.isLt]

/-! ## Lagrange interpolation at zero over ZMod 257 -/

theorem prod_ite_one_erase {M : Type} [CommMonoid M] {m : Nat} (i : Fin m)
    (F : Fin m → M) :
    ∏ j : Fin m, (if j = i then 1 else F j) = ∏ j ∈ Finset.univ.erase i, F j := by
  rw [← Finset.mul_prod_erase _ _ (Finset.mem_univ i), if_pos rfl, one_mul]
  exact Finset.prod_congr rfl (fun j hj => if_neg (Finset.mem_erase.mp hj).1)

theorem lagrange_sum_eval_zero (m : Nat) (xi : Fin m → ZMod 257)
    (hinj : Function.Injective xi) (c : List (ZMod 257)) (hlen : c.length ≤ m)
    (hcne : c ≠ []) :
    ∑ i : Fin m, (∑ t ∈ Finset.range c.length, c.getD t 0 * xi i ^ t) *
      ∏ j ∈ Finset.univ.erase i, (-(xi j)) * (xi i - xi j)⁻¹ = c.headD 0 := by
  classical
  set f : Polynomial (ZMod 257) :=
    ∑ t ∈ Finset.range c.length, Polynomial.C (c.getD t 0) * Polynomial.X ^ t with hf
  have heval : ∀ z : ZMod 257,
      f.eval z = ∑ t ∈ Finset.range c.length, c.getD t 0 * z ^ t := by
    intro z
    rw [hf, Polynomial.eval_finset_sum]
    exact Finset.sum_congr rfl (fun t _ => by
      rw [Polynomial.eval_mul, Polynomial.eval_C, Polynomial.eval_pow, Polynomial.eval_X])
  have hdeg : f.degree < (Finset.univ : Finset (Fin m)).card := by
    rw [Finset.card_univ, Fintype.card_fin]
    apply lt_of_le_of_lt (Polynomial.degree_sum_le _ _)
    rw [Finset.sup_lt_iff (by exact_mod_cast WithBot.bot_lt_coe m)]
    intro t ht
    apply lt_of_le_of_lt (Polynomial.degree_C_mul_X_pow_le t _)
    exact_mod_cast (Finset.mem_range.mp ht).trans_le hlen
  have hinterp : f = Lagrange.interpolate Finset.univ xi (fun i => f.eval (xi i)) :=
    Lagrange.eq_interpolate_of_eval_eq _ hinj.injOn hdeg (fun i _ => rfl)
  have h0 : f.eval 0 = c.headD 0 := by
    rw [heval 0, Finset.sum_eq_single 0]
    · rw [pow_zero, mul_one]
      cases c with
      | nil => exact absurd rfl hcne
      | cons a t => rfl
    · intro t _ htne
      rw [zero_pow htne, mul_zero]
    · intro h0mem
      exact absurd (Finset.mem_range.mpr (List.length_pos.mpr hcne)) h0mem
  have h1 : (Lagrange.interpolate Finset.univ xi (fun i => f.eval (xi i))).eval 0 =
      ∑ i : Fin m, (∑ t ∈ Finset.range c.length, c.getD t 0 * xi i ^ t) *
        ∏ j ∈ Finset.univ.erase i, (-(xi j)) * (xi i - xi j)⁻¹ := by
    rw [Lagrange.interpolate_apply, Polynomial.eval_finset_sum]
    apply Finset.sum_congr rfl
    intro i _
    rw [Polynomial.eval_mul, Polynomial.eval_C, heval (xi i)]
    congr 1
    unfold Lagrange.basis
    rw [Polynomial.eval_prod]
    apply Finset.prod_congr rfl
    intro j _
    unfold Lagrange.basisDivisor
    rw [Polynomial.eval_mul, Polynomial.eval_C, Polynomial.eval_sub, Polynomial.eval_X,
      Polynomial.eval_C]
    ring
  rw [← h1, ← hinterp, h0]

/-! ## Exact recovery on polynomial nodes -/

theorem recover_secret_cons (ps : List (Int × Int)) (hne : ps ≠ []) :
    recover_secret ps = lagrange_interp (ps.map Prod.fst) (ps.map Prod.snd) PRIME := by
  cases ps with
  | nil => exact absurd rfl hne
  | cons p rest => rfl

theorem headD_map_cast (c : List Int) :
    ((c.map (fun a : Int => (a : ZMod 257))).headD 0) = ((c.headD 0 : Int) : ZMod 257) := by
  cases c with
  | nil => simp
  | cons a t => rfl

theorem nat_nodes_injective (xsn : List Nat) (hnd : xsn.Nodup)
    (hlt : ∀ x ∈ xsn, x < 257) :
    Function.Injective (fun k : Fin xsn.length => ((xsn.get k : Nat) : ZMod 257)) := by
  intro a b hab
  have ha : xsn.get a < 257 := hlt _ (by rw [List.get_eq_getElem]; exact List.getElem_mem _)
  have hb : xsn.get b < 257 := hlt _ (by rw [List.get_eq_getElem]; exact List.getElem_mem _)
  have hval : xsn.get a = xsn.get b := by
    have hva := ZMod.val_cast_of_lt ha
    have hvb := ZMod.val_cast_of_lt hb
    have hc := congrArg ZMod.val hab
    simp only at hc
    rw [hva, hvb] at hc
    exact hc
  exact List.nodup_iff_injective_get.mp hnd hval

/-- The sum produced by the interpolation loops, on nodes `x ∈ xsn` with
values `eval_poly c x`, equals the constant coefficient of `c`. -/
theorem interp_sum_on_nat_nodes (xsn : List Nat) (c : List Int)
    (hnd : xsn.Nodup) (hlt : ∀ x ∈ xsn, x < 257)
    (hcne : c ≠ []) (hcl : c.length ≤ xsn.length) :
    ((xsn.map (fun x : Nat => ((x : Int), eval_poly c (x : Int) 257))).enum.map
      (fun item => ((item.2.2 : Int) : ZMod 257) *
        ((xsn.map (fun x : Nat => (x : Int))).enum.map (fun jx =>
          if jx.1 = item.1 then (1 : ZMod 257)
          else (-(jx.2 : ZMod 257)) *
            ((item.2.1 : ZMod 257) - (jx.2 : ZMod 257))⁻¹)).prod)).sum
    = ((c.headD 0 : Int) : ZMod 257) := by
  have hkey := lagrange_sum_eval_zero xsn.length
    (fun k => ((xsn.get k : Nat) : ZMod 257)) (nat_nodes_injective xsn hnd hlt)
    (c.map (fun a : Int => (a : ZMod 257)))
    (by rw [List.length_map]; exact hcl)
    (by
      intro hc
      exact hcne (by simpa using hc))
  rw [headD_map_cast] at hkey
  rw [enum_map_pt xsn (fun x : Nat => ((x : Int), eval_poly c (x : Int) 257)),
    List.map_map, enum_map_eq_ofFn xsn, List.sum_ofFn, ← hkey]
  apply Finset.sum_congr rfl
  intro j _
  show ((eval_poly c ((xsn.get j : Nat) : Int) 257 : Int) : ZMod 257) *
      ((xsn.map (fun x : Nat => (x : Int))).enum.map (fun jx =>
        if jx.1 = (j : Nat) then (1 : ZMod 257)
        else (-(jx.2 : ZMod 257)) *
          (((((xsn.get j : Nat) : Int)) : ZMod 257) - (jx.2 : ZMod 257))⁻¹)).prod = _
  rw [enum_map_pt xsn (fun x : Nat => (x : Int)), List.map_map, enum_map_eq_ofFn xsn,
    List.prod_ofFn, eval_poly_cast]
  congr 1
  · rw [List.length_map]
    apply Finset.sum_congr rfl
    intro t ht
    have htlen : t < c.length := Finset.mem_range.mp ht
    have hgd : (c.map (fun a : Int => (a : ZMod 257))).getD t 0 =
        ((c.getD t 0 : Int) : ZMod 257) := by
      rw [getD_eq_get _ _ _ (by rw [List.length_map]; exact htlen),
        getD_eq_get _ _ _ htlen, List.getElem_map]
    rw [hgd]
    push_cast
    ring
  · rw [← prod_ite_one_erase j (fun l => (-(((xsn.get l : Nat) : ZMod 257))) *
      (((xsn.get j : Nat) : ZMod 257) - ((xsn.get l : Nat) : ZMod 257))⁻¹)]
    apply Finset.prod_congr rfl
    intro l _
    show (if (l : Nat) = (j : Nat) then (1 : ZMod 257)
      else (-((((xsn.get l : Nat) : Int)) : ZMod 257)) *
        (((((xsn.get j : Nat) : Int)) : ZMod 257) -
          ((((xsn.get l : Nat) : Int)) : ZMod 257))⁻¹) = _
    by_cases hlj : l = j
    · rw [if_pos (by rw [hlj]), if_pos hlj]
    · rw [if_neg (fun hc => hlj (Fin.val_inj.mp hc)), if_neg hlj]
      push_cast
      ring

/-- Recovering from points that all lie on the polynomial with coefficient
list `c` (nodes in `[1, 256]`, pairwise distinct, at least `c.length` of
them) returns exactly the constant coefficient. -/
theorem recover_secret_poly (c : List Int) (xsn : List Nat)
    (hne : xsn ≠ []) (hnd : xsn.Nodup)
    (hxr : ∀ x ∈ xsn, 1 ≤ x ∧ x ≤ 256)
    (hcne : c ≠ []) (hcl : c.length ≤ xsn.length)
    (h00 : 0 ≤ c.headD 0) (h01 : c.headD 0 < 257) :
    recover_secret (xsn.map (fun x : Nat => ((x : Int), eval_poly c (x : Int) 257))) =
      .ok (c.headD 0) := by
  have hpsne : xsn.map (fun x : Nat => ((x : Int), eval_poly c (x : Int) 257)) ≠ [] := by
    intro hc
    exact hne (by simpa using hc)
  rw [recover_secret_cons _ hpsne, List.map_map, List.map_map]
  show lagrange_interp (xsn.map (fun x : Nat => (x : Int)))
    (xsn.map (fun x : Nat => eval_poly c (x : Int) 257)) 257 = .ok (c.headD 0)
  have hzip : (xsn.map (fun x : Nat => (x : Int))).zip
      (xsn.map (fun x : Nat => eval_poly c (x : Int) 257)) =
      xsn.map (fun x : Nat => ((x : Int), eval_poly c (x : Int) 257)) :=
    List.zip_map' _ _ _
  have hinv : ∀ item ∈ ((xsn.map (fun x : Nat => (x : Int))).zip
      (xsn.map (fun x : Nat => eval_poly c (x : Int) 257))).enum,
      ∀ jx ∈ (xsn.map (fun x : Nat => (x : Int))).enum, jx.1 ≠ item.1 →
      ((item.2.1 - jx.2 : Int) : ZMod 257) ≠ 0 := by
    rw [hzip]
    intro item hitem jx hjx hne2
    obtain ⟨i, hi, hieq⟩ := List.mem_iff_getElem.mp hitem
    obtain ⟨j, hj, hjeq⟩ := List.mem_iff_getElem.mp hjx
    simp only [List.getElem_enum] at hieq hjeq
    have hilen : i < xsn.length := by simpa using hi
    have hjlen : j < xsn.length := by simpa using hj
    have hxi : item.2.1 = ((xsn.get ⟨i, hilen⟩ : Nat) : Int) := by
      rw [← hieq]
      simp
    have hxj : jx.2 = ((xsn.get ⟨j, hjlen⟩ : Nat) : Int) := by
      rw [← hjeq]
      simp
    have hij : i ≠ j := fun hc => hne2 (by rw [← hieq, ← hjeq]; exact hc.symm)
    have hvne : xsn.get ⟨i, hilen⟩ ≠ xsn.get ⟨j, hjlen⟩ := by
      intro hc
      apply hij
      have hinj := List.nodup_iff_injective_get.mp hnd
      exact congrArg Fin.val (hinj hc)
    have hbi := hxr (xsn.get ⟨i, hilen⟩) (by exact List.getElem_mem hilen)
    have hbj := hxr (xsn.get ⟨j, hjlen⟩) (by exact List.getElem_mem hjlen)
    rw [hxi, hxj]
    intro hc
    rw [ZMod.intCast_zmod_eq_zero_iff_dvd] at hc
    have heq : ((xsn.get ⟨i, hilen⟩ : Nat) : Int) = ((xsn.get ⟨j, hjlen⟩ : Nat) : Int) := by
      omega
    exact hvne (by exact_mod_cast heq)
  obtain ⟨r, hr, h0, h1, hcast⟩ := lagrange_interp_spec
    (xsn.map (fun x : Nat => (x : Int)))
    (xsn.map (fun x : Nat => eval_poly c (x : Int) 257))
    (hnd.map (fun a b hab => by exact_mod_cast hab)) hinv
  suffices hre : r = c.headD 0 by rw [hr, hre]
  apply int_eq_of_cast_eq h0 h1 h00 h01
  rw [hcast, hzip]
  exact interp_sum_on_nat_nodes xsn c hnd (fun x hx => by have := hxr x hx; omega)
    hcne hcl

/-! ## Structure of `encode_secret` -/

theorem split_secret_length (b : Int) (n : Nat) (r : List Int) :
    (split_secret b n r).length = n := by
  simp [split_secret]

theorem split_secret_getD (b : Int) (n : Nat) (r : List Int) (i : Nat) (hi : i < n) :
    (split_secret b n r).getD i (0, 0) =
      (((1 + i : Nat) : Int), eval_poly (b :: r) (((1 + i : Nat) : Int)) 257) := by
  unfold split_secret PRIME
  rw [getD_eq_get _ _ _ (by simpa using hi), List.getElem_map, List.getElem_range']
  norm_num

theorem encodeLoop_length (n : Nat) (pairs : List (Nat × List Int))
    (acc : List (List (Int × Int))) (hacc : acc.length = n) :
    (encodeLoop n pairs acc).length = n := by
  induction pairs generalizing acc with
  | nil => simpa [encodeLoop] using hacc
  | cons br rest ih =>
    obtain ⟨b, r⟩ := br
    simp only [encodeLoop]
    exact ih _ (by rw [List.length_zipWith, hacc, split_secret_length]; exact Nat.min_self n)

theorem encodeLoop_getD (n : Nat) (pairs : List (Nat × List Int))
    (acc : List (List (Int × Int))) (hacc : acc.length = n) (i : Nat) (hi : i < n) :
    (encodeLoop n pairs acc).getD i [] =
      acc.getD i [] ++
        pairs.map (fun br => (split_secret (br.1 : Int) n br.2).getD i (0, 0)) := by
  induction pairs generalizing acc with
  | nil => simp [encodeLoop]
  | cons br rest ih =>
    obtain ⟨b, r⟩ := br
    simp only [encodeLoop]
    rw [ih _ (by rw [List.length_zipWith, hacc, split_secret_length]; exact Nat.min_self n)]
    have hacc2 : (List.zipWith (fun sh pt => sh ++ [pt]) acc
        (split_secret (b : Int) n r)).getD i [] =
        acc.getD i [] ++ [(split_secret (b : Int) n r).getD i (0, 0)] := by
      rw [getD_eq_get _ _ _
          (by rw [List.length_zipWith, hacc, split_secret_length]; simpa using hi),
        List.getElem_zipWith,
        getD_eq_get _ _ _ (by rw [hacc]; exact hi),
        getD_eq_get _ _ _ (by rw [split_secret_length]; exact hi)]
    rw [hacc2, List.append_assoc]
    simp

theorem encode_secret_ok (secret : List Nat) (n : Nat) (rands : List (List Int))
    (h : ∀ b ∈ secret, b < 128) :
    encode_secret secret n rands =
      .ok (encodeLoop n (secret.zip rands) (List.replicate n [])) := by
  unfold encode_secret
  rw [if_pos (List.all_eq_true.mpr (fun b hb => decide_eq_true (h b hb)))]

theorem encode_shares_getD (secret : List Nat) (n : Nat) (rands : List (List Int))
    (i : Nat) (hi : i < n) :
    (encodeLoop n (secret.zip rands) (List.replicate n [])).getD i [] =
      (secret.zip rands).map (fun br => (split_secret (br.1 : Int) n br.2).getD i (0, 0)) := by
  rw [encodeLoop_getD n _ _ (List.length_replicate _ _) i hi,
    getD_eq_get _ _ _ (by simpa using hi), List.getElem_replicate, List.nil_append]

/-! ## Structure of `zip(*shares)` and the byte loop -/

theorem foldl_min_all_eq (m : Nat) (ls : List Nat) (h : ∀ a ∈ ls, a = m) :
    ls.foldl min m = m := by
  induction ls with
  | nil => rfl
  | cons a t ih =>
    rw [List.foldl_cons, h a (List.mem_cons_self _ _), Nat.min_self]
    exact ih (fun x hx => h x (List.mem_cons_of_mem _ hx))

theorem zipStarLen_all_eq (shares : List (List (Int × Int))) (m : Nat)
    (hne : shares ≠ []) (h : ∀ s ∈ shares, s.length = m) :
    zipStarLen shares = m := by
  cases shares with
  | nil => exact absurd rfl hne
  | cons s rest =>
    show (rest.map List.length).foldl min s.length = m
    rw [h s (List.mem_cons_self _ _)]
    exact foldl_min_all_eq m _ (fun a ha => by
      obtain ⟨t, ht, rfl⟩ := List.mem_map.mp ha
      exact h t (List.mem_cons_of_mem _ ht))

theorem decodeBytesLoop_ok (cols : List (List (Int × Int))) (bytes : List Nat)
    (hlen : cols.length = bytes.length)
    (hrec : ∀ t, t < cols.length →
      recover_secret (cols.getD t []) = .ok ((bytes.getD t 0 : Nat) : Int) ∧
        bytes.getD t 0 < 256) :
    decodeBytesLoop cols = .ok bytes := by
  induction cols generalizing bytes with
  | nil =>
    cases bytes with
    | nil => rfl
    | cons b bs => simp at hlen
  | cons col rest ih =>
    cases bytes with
    | nil => simp at hlen
    | cons b bs =>
      have h0 := hrec 0 (by simp)
      have hcol : recover_secret col = .ok ((b : Nat) : Int) := h0.1
      have hblt : b < 256 := h0.2
      have hrest := ih bs (by simpa using hlen) (fun t ht => hrec (t + 1) (by simpa using ht))
      simp only [decodeBytesLoop, hcol, hrest]
      rw [if_pos (⟨by positivity, by exact_mod_cast hblt⟩ :
        0 ≤ ((b : Nat) : Int) ∧ ((b : Nat) : Int) < 256)]
      simp

theorem utf8_ascii_step (b : Nat) (t : List Nat) (hb : b < 0x80) :
    utf8Decode (b :: t) = (utf8Decode t).map (fun cs => b :: cs) := by
  show utf8Go (t.length + 1) (b :: t) = (utf8Go t.length t).map (fun cs => b :: cs)
  simp only [utf8Go]
  rw [if_pos hb]

theorem utf8Decode_ascii (bs : List Nat) (h : ∀ b ∈ bs, b < 128) :
    utf8Decode bs = some bs := by
  induction bs with
  | nil => rfl
  | cons b t ih =>
    rw [utf8_ascii_step b t (h b (List.mem_cons_self _ _)),
      ih (fun x hx => h x (List.mem_cons_of_mem _ hx))]
    rfl

/-! ## Claim C1: the split/recover round trip -/

/-- C1: for every ASCII secret, every `2 ≤ k ≤ n ≤ 255`, every admissible draw
of the random coefficients, and every `k`-element selection of distinct share
indices, decoding the selected shares of `encode_secret` yields exactly the
original secret. -/
theorem encode_decode_round_trip (secret : List Nat) (n k : Nat)
    (rands : List (List Int)) (sel : List Nat) (shares : List (List (Int × Int)))
    (hb : ∀ b ∈ secret, b < 128)
    (hk : 2 ≤ k) (hkn : k ≤ n) (hn : n ≤ 255)
    (hr : rands.length = secret.length)
    (hrl : ∀ r ∈ rands, r.length = k - 1)
    (hrv : ∀ r ∈ rands, ∀ cc ∈ r, 0 ≤ cc ∧ cc < 257)
    (henc : encode_secret secret n rands = .ok shares)
    (hsel : sel.length = k) (hsnd : sel.Nodup) (hlt : ∀ i ∈ sel, i < n) :
    decode_secret (sel.map (fun i => shares.getD i [])) = .ok secret := by
  rw [encode_secret_ok secret n rands hb] at henc
  obtain rfl : encodeLoop n (secret.zip rands) (List.replicate n []) = shares :=
    Except.ok.inj henc
  have hzl : (secret.zip rands).length = secret.length := by
    rw [List.length_zip, hr, Nat.min_self]
  have hsh_i : ∀ i ∈ sel,
      (encodeLoop n (secret.zip rands) (List.replicate n [])).getD i [] =
        (secret.zip rands).map
          (fun br => (split_secret (br.1 : Int) n br.2).getD i (0, 0)) :=
    fun i hi => encode_shares_getD secret n rands i (hlt i hi)
  have hselne : sel ≠ [] := by
    intro hc
    rw [hc] at hsel
    simp at hsel
    omega
  have hsel_len : ∀ s ∈ sel.map
      (fun i => (encodeLoop n (secret.zip rands) (List.replicate n [])).getD i []),
      s.length = secret.length := by
    intro s hs
    obtain ⟨i, hi, rfl⟩ := List.mem_map.mp hs
    rw [hsh_i i hi, List.length_map, hzl]
  have hzlen : zipStarLen (sel.map
      (fun i => (encodeLoop n (secret.zip rands) (List.replicate n [])).getD i [])) =
      secret.length :=
    zipStarLen_all_eq _ _ (by simpa using hselne) hsel_len
  unfold decode_secret
  rw [show zipStar (sel.map
      (fun i => (encodeLoop n (secret.zip rands) (List.replicate n [])).getD i [])) =
      (List.range secret.length).map (fun t => (sel.map
        (fun i => (encodeLoop n (secret.zip rands) (List.replicate n [])).getD i [])).map
          (fun s => s.getD t (0, 0))) from by rw [zipStar, hzlen]]
  rw [decodeBytesLoop_ok _ secret (by rw [List.length_map, List.length_range]) ?hcols]
  case hcols =>
    intro t ht
    have htm : t < secret.length := by simpa using ht
    have hcol : ((List.range secret.length).map (fun t => (sel.map
        (fun i => (encodeLoop n (secret.zip rands) (List.replicate n [])).getD i [])).map
          (fun s => s.getD t (0, 0)))).getD t [] =
        (sel.map (fun i => 1 + i)).map (fun x : Nat =>
          ((x : Int), eval_poly (((secret.getD t 0 : Nat) : Int) ::
            (rands.getD t [])) (x : Int) 257)) := by
      rw [getD_eq_get _ _ _ (by simpa using htm), List.getElem_map, List.getElem_range,
        List.map_map, List.map_map]
      apply List.map_congr_left
      intro i hi
      show ((encodeLoop n (secret.zip rands) (List.replicate n [])).getD i []).getD t (0, 0) = _
      rw [hsh_i i hi,
        getD_eq_get _ _ _ (by rw [List.length_map, hzl]; exact htm),
        List.getElem_map, List.getElem_zip, split_secret_getD _ _ _ _ (hlt i hi),
        getD_eq_get _ _ _ htm, getD_eq_get _ _ _ (by rw [hr]; exact htm)]
      rfl
    constructor
    · rw [hcol]
      have hrt : rands.getD t [] ∈ rands := by
        rw [getD_eq_get _ _ _ (by rw [hr]; exact htm)]
        exact List.getElem_mem _
      exact recover_secret_poly
        (((secret.getD t 0 : Nat) : Int) :: rands.getD t [])
        (sel.map (fun i => 1 + i))
        (by simpa using hselne)
        (hsnd.map (fun a b hab => by omega))
        (by
          intro x hx
          obtain ⟨i, hi, rfl⟩ := List.mem_map.mp hx
          have := hlt i hi
          omega)
        (by simp)
        (by rw [List.length_cons, hrl _ hrt, List.length_map, hsel]; omega)
        (by
          show (0 : Int) ≤ ((secret.getD t 0 : Nat) : Int)
          positivity)
        (by
          show ((secret.getD t 0 : Nat) : Int) < 257
          rw [getD_eq_get _ _ _ htm]
          have := hb secret[t] (List.getElem_mem htm)
          exact_mod_cast by omega)
    · rw [getD_eq_get _ _ _ htm]
      have := hb secret[t] (List.getElem_mem htm)
      omega
  simp only [decodeFinish]
  rw [utf8Decode_ascii secret hb]

/-- Witness for C1: the secret "Hi" (bytes 72, 105), split with `n = 5`,
`k = 3` and the coefficient draw `[[1, 2], [3, 4]]`, is recovered exactly from
the share subset at positions 0, 2, 4. -/
theorem encode_decode_round_trip_witness :
    decode_secret (([0, 2, 4] : List Nat).map
      (fun i => ([[((1 : Int), (75 : Int)), (1, 112)], [(2, 82), (2, 127)],
        [(3, 93), (3, 150)], [(4, 108), (4, 181)],
        [(5, 127), (5, 220)]] : List (List (Int × Int))).getD i [])) =
      .ok [72, 105] :=
  encode_decode_round_trip [72, 105] 5 3 [[1, 2], [3, 4]] [0, 2, 4]
    [[(1, 75), (1, 112)], [(2, 82), (2, 127)], [(3, 93), (3, 150)],
      [(4, 108), (4, 181)], [(5, 127), (5, 220)]]
    (by decide) (by decide) (by decide) (by decide) rfl (by decide) (by decide)
    rfl rfl (by decide) (by decide)
